import Mathlib

/-!
# Verification of the AppsFlyer SDK MCP server log-telemetry and verification core

This development gives a shallow embedding, in Lean 4, of the algorithmic core of
the `appsflyer-sdk-mcp-server` repository:

* `src/logcat/parse.ts`   — timestamp parsing, greedy-brace JSON extraction, and
  the buffer filtering query `getParsedAppsflyerFilters`;
* `src/tools/verifyDeepLink.ts` — the deep-link verifier (field-spec table,
  expected/received resolution, required-field and comparison checks, verdict);
* `src/tools/verifyInAppEvent.ts` — the in-app event correlator (prepare /
  send-success scan keyed by task id) and its query stage;
* `src/state/deepLinkState.ts` — the expected deep-link data store.

JavaScript runtime values carried by these functions are JSON values plus
`undefined`; we model them with the inductive `Json` (with `Option Json`
standing for possibly-`undefined` values).  Two deliberate model restrictions,
both noted where they occur: JSON numbers are modelled as integers (the log
payloads compared by the tools are strings and booleans; float-valued lines
simply fall outside the model's parser), and `Date` arithmetic is modelled in
UTC (the year-inference logic under verification is independent of the fixed
timezone offset).  Strings are modelled as `List Char` of Unicode scalars.
-/

namespace AF

/-- Strings are modelled as lists of characters so that structural induction is
available; `String.data` converts literals at the boundary. -/
abbrev Str := List Char

/-! ## Basic character/string utilities shared by the embedded functions -/

/-- JSON insignificant whitespace (RFC 8259): space, tab, line feed, carriage return. -/
def isWsChar (c : Char) : Bool :=
  c = ' ' || c = '\t' || c = '\n' || c = '\r'

/-- Skip leading JSON whitespace. -/
def skipWs : Str → Str
  | [] => []
  | c :: cs => if isWsChar c then skipWs cs else c :: cs

/-- `startsWith pat s`: `pat` is a prefix of `s`. -/
def startsWith : Str → Str → Bool
  | [], _ => true
  | _ :: _, [] => false
  | p :: ps, c :: cs => p = c && startsWith ps cs

/-- `containsSub pat s` models JavaScript `s.includes(pat)`. -/
def containsSub (pat : Str) : Str → Bool
  | [] => startsWith pat []
  | c :: cs => startsWith pat (c :: cs) || containsSub pat cs

/-- ASCII lower-casing of one character, as applied by `line.toLowerCase()` to
the ASCII marker substrings the scanner searches for. -/
def asciiLower (c : Char) : Char :=
  if 'A' ≤ c && c ≤ 'Z' then Char.ofNat (c.toNat + 32) else c

/-- Lower-case a string character-wise (model of `String.prototype.toLowerCase`
on the ASCII range). -/
def lowerStr (s : Str) : Str := s.map asciiLower

/-- Whitespace stripped by `String.prototype.trim` (ASCII portion). -/
def isTrimWs (c : Char) : Bool :=
  c = ' ' || c = '\t' || c = '\n' || c = '\r' || c = '\x0b' || c = '\x0c'

/-- Model of `String.prototype.trim`. -/
def trimStr (s : Str) : Str :=
  ((s.dropWhile isTrimWs).reverse.dropWhile isTrimWs).reverse

/-! ## The JSON value model

A mutual inductive is used (rather than nested `List`) so that structural
recursion and induction over values, array elements and object members are
all directly available.  Object members keep insertion order, as JavaScript
objects do. -/

mutual

inductive Json where
  | null : Json
  | bool (b : Bool) : Json
  | num (n : Int) : Json
  | str (s : Str) : Json
  | arr (a : JsonArr) : Json
  | obj (o : JsonObj) : Json

inductive JsonArr where
  | nil : JsonArr
  | cons (hd : Json) (tl : JsonArr) : JsonArr

inductive JsonObj where
  | nil : JsonObj
  | cons (k : Str) (v : Json) (tl : JsonObj) : JsonObj

end

deriving instance DecidableEq for Json
deriving instance DecidableEq for JsonArr
deriving instance DecidableEq for JsonObj

/-- First-occurrence lookup of a key in an object, i.e. JavaScript property
access `o[k]` on an object whose members are listed in insertion order
(`none` models `undefined`). -/
def objFind : JsonObj → Str → Option Json
  | .nil, _ => none
  | .cons k v tl, key => if k = key then some v else objFind tl key

/-- JavaScript property assignment `o[k] = v`: overwrite the value in place
when the key exists, append a new member otherwise. -/
def objSet : JsonObj → Str → Json → JsonObj
  | .nil, key, v => .cons key v .nil
  | .cons k w tl, key, v =>
    if k = key then .cons k v tl else .cons k w (objSet tl key v)

/-- Append two member lists. -/
def objAppend : JsonObj → JsonObj → JsonObj
  | .nil, o => o
  | .cons k v tl, o => .cons k v (objAppend tl o)

/-- The keys of an object, in order. -/
def objKeys : JsonObj → List Str
  | .nil => []
  | .cons k _ tl => k :: objKeys tl

/-! ## Decimal and hexadecimal digit rendering (for `JSON.stringify` and
`String(number)`) -/

/-- The decimal digit character for `n < 10`. -/
def digitCh (n : Nat) : Char := Char.ofNat (48 + n)

/-- Fuelled digit renderer (structural recursion, so that the kernel can
evaluate it; the fuel is irrelevant once larger than the number). -/
def natToCharsF : Nat → Nat → Str
  | 0, _ => []
  | fuel + 1, n =>
    if n < 10 then [digitCh n]
    else natToCharsF fuel (n / 10) ++ [digitCh (n % 10)]

/-- Decimal representation of a natural number, most significant digit first
(no leading zeros; `0` renders as `"0"`). -/
def natToChars (n : Nat) : Str := natToCharsF (n + 1) n

theorem natToCharsF_congr : ∀ n f1 f2, n < f1 → n < f2 →
    natToCharsF f1 n = natToCharsF f2 n := by
  intro n
  induction n using Nat.strong_induction_on with
  | _ n ih =>
    intro f1 f2 h1 h2
    cases f1 with
    | zero => omega
    | succ g1 =>
      cases f2 with
      | zero => omega
      | succ g2 =>
        rw [natToCharsF, natToCharsF]
        by_cases hn : n < 10
        · rw [if_pos hn, if_pos hn]
        · rw [if_neg hn, if_neg hn,
            ih (n / 10) (Nat.div_lt_self (by omega) (by omega)) g1 g2
              (by omega) (by omega)]

/-- The defining unfolding of `natToChars`. -/
theorem natToChars_unfold (n : Nat) :
    natToChars n = if n < 10 then [digitCh n]
      else natToChars (n / 10) ++ [digitCh (n % 10)] := by
  rw [natToChars, natToCharsF]
  by_cases hn : n < 10
  · rw [if_pos hn, if_pos hn]
  · rw [if_neg hn, if_neg hn, natToChars,
      natToCharsF_congr (n / 10) n (n / 10 + 1) (Nat.div_lt_self (by omega) (by omega))
        (by omega)]

/-- Decimal representation of an integer, as produced by `String(n)` and
`JSON.stringify` on an integral JavaScript number. -/
def intToChars (n : Int) : Str :=
  if n < 0 then '-' :: natToChars n.natAbs else natToChars n.natAbs

/-- Lower-case hexadecimal digit character for `n < 16`, as used by
`JSON.stringify`'s `\u00XX` escapes. -/
def hexCh (n : Nat) : Char :=
  if n < 10 then Char.ofNat (48 + n) else Char.ofNat (87 + n)

/-- Value of a hexadecimal digit character (upper or lower case), `none` when
the character is not a hex digit. -/
def hexVal (c : Char) : Option Nat :=
  if '0' ≤ c && c ≤ '9' then some (c.toNat - 48)
  else if 'a' ≤ c && c ≤ 'f' then some (c.toNat - 87)
  else if 'A' ≤ c && c ≤ 'F' then some (c.toNat - 55)
  else none

/-! ## `JSON.stringify` -/

/-- Escape one character of a JSON string, exactly as `JSON.stringify` does:
quote and backslash get two-character escapes, the named control characters get
theirs, remaining control characters get `\u00XX`, everything else is literal. -/
def escChar (c : Char) : Str :=
  if c = '"' then ['\\', '"']
  else if c = '\\' then ['\\', '\\']
  else if c = '\x08' then ['\\', 'b']
  else if c = '\t' then ['\\', 't']
  else if c = '\n' then ['\\', 'n']
  else if c = '\x0c' then ['\\', 'f']
  else if c = '\r' then ['\\', 'r']
  else if c.toNat < 32 then ['\\', 'u', '0', '0', hexCh (c.toNat / 16), hexCh (c.toNat % 16)]
  else [c]

/-- Escape a whole JSON string body. -/
def escStr : Str → Str
  | [] => []
  | c :: cs => escChar c ++ escStr cs

mutual

/-- `JSON.stringify` on a value (no spacing argument): canonical compact form. -/
def strV : Json → Str
  | .null => 'n' :: 'u' :: 'l' :: 'l' :: []
  | .bool true => 't' :: 'r' :: 'u' :: 'e' :: []
  | .bool false => 'f' :: 'a' :: 'l' :: 's' :: 'e' :: []
  | .num n => intToChars n
  | .str s => '"' :: escStr s ++ ['"']
  | .arr a => '[' :: strElems a ++ [']']
  | .obj o => '{' :: strMembers o ++ ['}']

/-- Comma-separated rendering of array elements. -/
def strElems : JsonArr → Str
  | .nil => []
  | .cons h .nil => strV h
  | .cons h (.cons h2 tl) => strV h ++ ',' :: strElems (.cons h2 tl)

/-- Comma-separated rendering of object members. -/
def strMembers : JsonObj → Str
  | .nil => []
  | .cons k v .nil => '"' :: escStr k ++ '"' :: ':' :: strV v
  | .cons k v (.cons k2 v2 tl) =>
    '"' :: escStr k ++ '"' :: ':' :: strV v ++ ',' :: strMembers (.cons k2 v2 tl)

end

/-! ## `JSON.parse`

A recursive-descent parser over `Str` with a fuel argument bounding nesting
depth.  It follows the RFC 8259 grammar consumed by `JSON.parse`, with the one
model restriction already noted: number tokens with a fraction or exponent part
are rejected (numbers are modelled as integers), where `JSON.parse` would
produce a float. -/

/-- Strip an expected literal prefix, returning the remainder. -/
def stripLit : Str → Str → Option Str
  | [], cs => some cs
  | _ :: _, [] => none
  | p :: ps, c :: cs => if c = p then stripLit ps cs else none

/-- Does the list start with a character satisfying `p`? -/
def headIs (p : Char → Bool) : Str → Bool
  | [] => false
  | c :: _ => p c

/-- A character that may not directly follow an integer token in the model:
a further digit would extend the token, and `.`/`e`/`E` would start the
fraction/exponent forms excluded from the integer-number model. -/
def numFollowBad (c : Char) : Bool :=
  c.isDigit || c = '.' || c = 'e' || c = 'E'

/-- Fold decimal digit characters into a value. -/
def digitsVal (ds : Str) : Nat :=
  ds.foldl (fun a c => a * 10 + (c.toNat - 48)) 0

/-- Parse an unsigned JSON integer token (`0`, or a nonzero digit followed by
digits; leading zeros are a parse error, as in `JSON.parse`). -/
def parseNatTok : Str → Option (Nat × Str)
  | [] => none
  | '0' :: rest => if headIs numFollowBad rest then none else some (0, rest)
  | c :: rest =>
    if c.isDigit then
      if headIs (fun d => d = '.' || d = 'e' || d = 'E')
          ((c :: rest).dropWhile Char.isDigit) then none
      else some (digitsVal ((c :: rest).takeWhile Char.isDigit),
        (c :: rest).dropWhile Char.isDigit)
    else none

/-- Parse a JSON number token (integer form only, see the model note). -/
def parseNum : Str → Option (Int × Str)
  | '-' :: rest => (parseNatTok rest).map (fun p => (-(p.1 : Int), p.2))
  | cs => (parseNatTok cs).map (fun p => ((p.1 : Int), p.2))

/-- The scalar value denoted by a `\uXXXX` escape, when its four hex digits
are valid and it does not name a surrogate half. -/
def uEscVal (h1 h2 h3 h4 : Char) : Option Nat :=
  match hexVal h1, hexVal h2, hexVal h3, hexVal h4 with
  | some a, some b, some c, some d =>
    let n := ((a * 16 + b) * 16 + c) * 16 + d
    if n < 0xd800 ∨ (0xdfff < n ∧ n < 0x110000) then some n else none
  | _, _, _, _ => none

/-- The character a simple (one-letter) escape denotes, if it is one of the
escapes accepted by `JSON.parse`. -/
def simpleEsc (e : Char) : Option Char :=
  if e = '"' then some '"'
  else if e = '\\' then some '\\'
  else if e = '/' then some '/'
  else if e = 'b' then some '\x08'
  else if e = 'f' then some '\x0c'
  else if e = 'n' then some '\n'
  else if e = 'r' then some '\r'
  else if e = 't' then some '\t'
  else none

/-- Decode one escape sequence (the part after the backslash), returning the
denoted character and the number of characters consumed. -/
def decodeEsc : Str → Option (Char × Nat)
  | [] => none
  | e :: rest2 =>
    match simpleEsc e with
    | some d => some (d, 1)
    | none =>
      if e = 'u' then
        match rest2 with
        | h1 :: h2 :: h3 :: h4 :: _ =>
          match uEscVal h1 h2 h3 h4 with
          | some n => some (Char.ofNat n, 5)
          | none => none
        | _ => none
      else none

/-- Fuelled string-body parser (structural recursion; every step consumes at
least one character, so `length + 1` fuel always suffices). -/
def parseStringBodyF : Nat → Str → Option (Str × Str)
  | 0, _ => none
  | fuel + 1, s =>
    match s with
    | [] => none
    | c :: rest =>
      if c = '"' then some ([], rest)
      else if c = '\\' then
        match decodeEsc rest with
        | some (d, k) => (parseStringBodyF fuel (rest.drop k)).map (fun q => (d :: q.1, q.2))
        | none => none
      else if c.toNat < 32 then none
      else (parseStringBodyF fuel rest).map (fun p => (c :: p.1, p.2))

/-- Parse the body of a JSON string after the opening quote, undoing the
escapes accepted by `JSON.parse` (`\" \\ \/ \b \f \n \r \t \uXXXX`); raw
control characters and lone-surrogate `\u` escapes are parse errors. -/
def parseStringBody (s : Str) : Option (Str × Str) :=
  parseStringBodyF (s.length + 1) s

mutual

/-- Parse one JSON value (leading whitespace allowed), returning the value and
the unconsumed remainder. -/
def parseV : Nat → Str → Option (Json × Str)
  | 0, _ => none
  | fuel + 1, cs =>
    match skipWs cs with
    | [] => none
    | c :: rest =>
      if c = 'n' then (stripLit ['u', 'l', 'l'] rest).map (fun r => (Json.null, r))
      else if c = 't' then (stripLit ['r', 'u', 'e'] rest).map (fun r => (Json.bool true, r))
      else if c = 'f' then (stripLit ['a', 'l', 's', 'e'] rest).map (fun r => (Json.bool false, r))
      else if c = '"' then (parseStringBody rest).map (fun p => (Json.str p.1, p.2))
      else if c = '[' then
        match skipWs rest with
        | [] => none
        | c2 :: r2 =>
          if c2 = ']' then some (Json.arr .nil, r2)
          else (parseElems fuel (c2 :: r2)).map (fun p => (Json.arr p.1, p.2))
      else if c = '{' then
        match skipWs rest with
        | [] => none
        | c2 :: r2 =>
          if c2 = '}' then some (Json.obj .nil, r2)
          else (parseMembers fuel .nil (c2 :: r2)).map (fun p => (Json.obj p.1, p.2))
      else (parseNum (c :: rest)).map (fun p => (Json.num p.1, p.2))

/-- Parse the non-empty element list of an array, consuming the closing `]`. -/
def parseElems : Nat → Str → Option (JsonArr × Str)
  | 0, _ => none
  | fuel + 1, cs =>
    match parseV fuel cs with
    | none => none
    | some (v, rest) =>
      match skipWs rest with
      | [] => none
      | c2 :: r2 =>
        if c2 = ',' then (parseElems fuel r2).map (fun p => (JsonArr.cons v p.1, p.2))
        else if c2 = ']' then some (JsonArr.cons v .nil, r2)
        else none

/-- Parse the non-empty member list of an object, consuming the closing `}`.
Members are installed with `objSet`, reproducing JavaScript's duplicate-key
behaviour: the last value wins and the key keeps its first position. -/
def parseMembers : Nat → JsonObj → Str → Option (JsonObj × Str)
  | 0, _, _ => none
  | fuel + 1, acc, cs =>
    match skipWs cs with
    | [] => none
    | c :: rest =>
      if c = '"' then
        match parseStringBody rest with
        | none => none
        | some (k, r1) =>
          match skipWs r1 with
          | [] => none
          | c1 :: r2 =>
            if c1 = ':' then
              match parseV fuel r2 with
              | none => none
              | some (v, r3) =>
                match skipWs r3 with
                | [] => none
                | c3 :: r4 =>
                  if c3 = ',' then parseMembers fuel (objSet acc k v) r4
                  else if c3 = '}' then some (objSet acc k v, r4)
                  else none
            else none
      else none

end

/-- Full-input `JSON.parse`: one value, then only trailing whitespace.  The
fuel `length + 1` suffices because every recursive level consumes at least one
character. -/
def jsonParse (s : Str) : Option Json :=
  match parseV (s.length + 1) s with
  | some (v, rest) => if skipWs rest = [] then some v else none
  | none => none

/-! ## `extractJsonFromLine` (src/logcat/parse.ts)

The greedy span match `/{.*}/s`: from the first `{` of the line through the
last `}`, provided the latter comes after the former. -/

/-- The suffix of the line starting at its first `{`, if any. -/
def dropToBrace : Str → Option Str
  | [] => none
  | c :: cs => if c = '{' then some (c :: cs) else dropToBrace cs

/-- The prefix of the line ending at its last `}`, if any. -/
def takeThruLastBrace (s : Str) : Option Str :=
  let r := s.reverse.dropWhile (fun c => ¬ c = '}')
  if r = [] then none else some r.reverse

/-- The span matched by `/{.*}/s`: first `{` through last `}`. -/
def braceSpan (s : Str) : Option Str :=
  (dropToBrace s).bind takeThruLastBrace

/-- `extractJsonFromLine`: locate the first-`{`-to-last-`}` span and parse it
as JSON; `null` (here `none`) on absence of a span or any parse failure. -/
def extractJson (line : Str) : Option Json :=
  if line.isEmpty then none
  else match braceSpan line with
    | none => none
    | some span => jsonParse span

/-! ## Structural measures and well-formedness for the parser proofs -/

mutual

/-- Node count of a value (used as a fuel bound). -/
def sizeV : Json → Nat
  | .null => 1
  | .bool _ => 1
  | .num _ => 1
  | .str _ => 1
  | .arr a => sizeA a + 1
  | .obj o => sizeO o + 1

/-- Node count of an array's elements. -/
def sizeA : JsonArr → Nat
  | .nil => 0
  | .cons h tl => sizeV h + sizeA tl + 1

/-- Node count of an object's members. -/
def sizeO : JsonObj → Nat
  | .nil => 0
  | .cons _ v tl => sizeV v + sizeO tl + 1

end

/-- The keys of a member list are pairwise distinct. -/
def keysNoDup : JsonObj → Bool
  | .nil => true
  | .cons k _ tl => !(decide (k ∈ objKeys tl)) && keysNoDup tl

mutual

/-- Every object node in the value has pairwise-distinct keys (an invariant of
`JSON.parse` output). -/
def wfV : Json → Bool
  | .null => true
  | .bool _ => true
  | .num _ => true
  | .str _ => true
  | .arr a => wfA a
  | .obj o => keysNoDup o && wfO o

/-- All elements well-formed. -/
def wfA : JsonArr → Bool
  | .nil => true
  | .cons h tl => wfV h && wfA tl

/-- All member values well-formed. -/
def wfO : JsonObj → Bool
  | .nil => true
  | .cons _ v tl => wfV v && wfO tl

end

/-! ## Supporting lemmas: whitespace, literals, digits -/

theorem skipWs_cons_not {c : Char} (cs : Str) (h : isWsChar c = false) :
    skipWs (c :: cs) = c :: cs := by
  simp [skipWs, h]

theorem stripLit_self (p rest : Str) : stripLit p (p ++ rest) = some rest := by
  induction p with
  | nil => rfl
  | cons c cs ih => simp [stripLit, ih]

theorem digitCh_isDigit {n : Nat} (h : n < 10) : (digitCh n).isDigit = true := by
  interval_cases n <;> decide

theorem digitCh_toNat {n : Nat} (h : n < 10) : (digitCh n).toNat = 48 + n := by
  interval_cases n <;> decide

theorem isDigit_toNat {c : Char} (h : c.isDigit = true) :
    48 ≤ c.toNat ∧ c.toNat ≤ 57 := by
  simp [Char.isDigit] at h
  exact h

theorem natToChars_ne_nil (n : Nat) : natToChars n ≠ [] := by
  rw [natToChars_unfold]
  split <;> simp

theorem natToChars_all_digits (n : Nat) : ∀ c ∈ natToChars n, c.isDigit = true := by
  induction n using Nat.strong_induction_on with
  | _ n ih =>
    rw [natToChars_unfold]
    split
    · rename_i h
      intro c hc
      simp at hc
      subst hc
      exact digitCh_isDigit h
    · rename_i h
      intro c hc
      simp at hc
      rcases hc with hc | hc
      · exact ih (n / 10) (Nat.div_lt_self (by omega) (by omega)) c hc
      · subst hc
        exact digitCh_isDigit (Nat.mod_lt _ (by omega))

theorem digitsVal_append_one (ds : Str) (c : Char) :
    digitsVal (ds ++ [c]) = digitsVal ds * 10 + (c.toNat - 48) := by
  simp [digitsVal]

theorem digitsVal_natToChars (n : Nat) : digitsVal (natToChars n) = n := by
  induction n using Nat.strong_induction_on with
  | _ n ih =>
    rw [natToChars_unfold]
    split
    · rename_i h
      simp [digitsVal, digitCh_toNat h]
    · rename_i h
      rw [digitsVal_append_one, ih (n / 10) (Nat.div_lt_self (by omega) (by omega)),
        digitCh_toNat (Nat.mod_lt _ (by omega))]
      omega

theorem natToChars_head_pos {n : Nat} (h : 0 < n) :
    ∃ c t, natToChars n = c :: t ∧ c.isDigit = true ∧ c ≠ '0' := by
  induction n using Nat.strong_induction_on with
  | _ n ih =>
    rw [natToChars_unfold]
    split
    · rename_i h10
      refine ⟨digitCh n, [], rfl, digitCh_isDigit h10, ?_⟩
      intro hc
      have := digitCh_toNat h10
      rw [hc] at this
      simp at this
      omega
    · rename_i h10
      obtain ⟨c, t, heq, hd, hz⟩ :=
        ih (n / 10) (Nat.div_lt_self (by omega) (by omega))
          (Nat.div_pos (by omega) (by omega))
      exact ⟨c, t ++ [digitCh (n % 10)], by rw [heq]; rfl, hd, hz⟩

theorem takeWhile_all_append {p : Char → Bool} {l rest : Str}
    (hall : ∀ c ∈ l, p c = true) (hrest : headIs p rest = false) :
    (l ++ rest).takeWhile p = l ∧ (l ++ rest).dropWhile p = rest := by
  induction l with
  | nil =>
    cases rest with
    | nil => simp
    | cons c cs =>
      simp [headIs] at hrest
      simp [List.takeWhile, List.dropWhile, hrest]
  | cons c cs ih =>
    have hc : p c = true := hall c (by simp)
    have ih' := ih (fun d hd => hall d (by simp [hd]))
    simp [List.takeWhile, List.dropWhile, hc, ih'.1, ih'.2]

theorem numFollowBad_parts {c : Char} (h : numFollowBad c = false) :
    c.isDigit = false ∧ (c = '.' || c = 'e' || c = 'E') = false := by
  rw [numFollowBad] at h
  cases hd : c.isDigit <;> cases he : (c = '.' || c = 'e' || c = 'E') <;>
    simp_all

theorem headIs_of_numFollowBad {rest : Str} (h : headIs numFollowBad rest = false) :
    headIs Char.isDigit rest = false ∧
      headIs (fun d => d = '.' || d = 'e' || d = 'E') rest = false := by
  cases rest with
  | nil => exact ⟨rfl, rfl⟩
  | cons c cs =>
    simp only [headIs] at h ⊢
    exact numFollowBad_parts h

theorem digit_ne_minus {c : Char} (hdig : c.isDigit = true) : c ≠ '-' := by
  intro hcm
  have := isDigit_toNat hdig
  rw [hcm] at this
  simp at this

theorem parseNatTok_natToChars (n : Nat) {rest : Str}
    (hrest : headIs numFollowBad rest = false) :
    parseNatTok (natToChars n ++ rest) = some (n, rest) := by
  obtain ⟨hd, hde⟩ := headIs_of_numFollowBad hrest
  rcases Nat.eq_zero_or_pos n with hz | hp
  · subst hz
    have h0 : natToChars 0 = ['0'] := by rw [natToChars_unfold]; rfl
    rw [h0]
    simp [parseNatTok, hrest]
  · obtain ⟨c, t, heq, hdig, hne0⟩ := natToChars_head_pos hp
    have hall : ∀ d ∈ c :: t, d.isDigit = true := by
      rw [← heq]; exact natToChars_all_digits n
    obtain ⟨htake, hdrop⟩ := takeWhile_all_append hall hd
    rw [heq, List.cons_append, parseNatTok.eq_def]
    split
    · rename_i heqq
      exact absurd heqq (by simp)
    · rename_i r' heqq
      injection heqq with h1 _
      exact absurd h1 hne0
    · rename_i c' r' heqq
      injection heqq with h1 h2
      subst h1
      rw [← h2, ← List.cons_append, hdrop, htake, if_pos hdig,
        if_neg (by simp [hde]), ← heq, digitsVal_natToChars]

theorem parseNum_intToChars (n : Int) {rest : Str}
    (hrest : headIs numFollowBad rest = false) :
    parseNum (intToChars n ++ rest) = some (n, rest) := by
  by_cases hneg : n < 0
  · rw [intToChars, if_pos hneg, List.cons_append, parseNum,
      parseNatTok_natToChars n.natAbs hrest]
    have habs : -((n.natAbs : Int)) = n := by omega
    simp only [Option.map_some']
    rw [habs]
  · rw [intToChars, if_neg hneg]
    obtain ⟨c, t, heq⟩ : ∃ c t, natToChars n.natAbs = c :: t := by
      cases hX : natToChars n.natAbs with
      | nil => exact absurd hX (natToChars_ne_nil _)
      | cons c t => exact ⟨c, t, rfl⟩
    have hdig : c.isDigit = true :=
      natToChars_all_digits n.natAbs c (by rw [heq]; simp)
    rw [heq, List.cons_append, parseNum.eq_def]
    split
    · rename_i heqq
      injection heqq with h1 _
      exact absurd h1 (digit_ne_minus hdig)
    · rw [← List.cons_append, ← heq, parseNatTok_natToChars n.natAbs hrest]
      have habs : ((n.natAbs : Int)) = n := by omega
      simp only [Option.map_some']
      rw [habs]

/-! ## String-escape roundtrip -/

theorem hexCh_val {n : Nat} (h : n < 16) : hexVal (hexCh n) = some n := by
  interval_cases n <;> decide

theorem escChar_len_pos (c : Char) : 1 ≤ (escChar c).length := by
  rw [escChar]
  split
  · simp
  split
  · simp
  split
  · simp
  split
  · simp
  split
  · simp
  split
  · simp
  split
  · simp
  split
  · simp
  · simp

theorem parseStringBodyF_escStr (s : Str) : ∀ (fuel : Nat) (rest : Str),
    (escStr s).length < fuel →
    parseStringBodyF fuel (escStr s ++ '"' :: rest) = some (s, rest) := by
  induction s with
  | nil =>
    intro fuel rest hf
    cases fuel with
    | zero => exact absurd hf (Nat.not_lt_zero _)
    | succ f => simp [escStr, parseStringBodyF]
  | cons c cs ih =>
    intro fuel rest hf
    cases fuel with
    | zero => exact absurd hf (Nat.not_lt_zero _)
    | succ f =>
      have hlen : (escStr cs).length < f := by
        have h1 := escChar_len_pos c
        rw [escStr, List.length_append] at hf
        omega
      have ihr := ih f rest hlen
      rw [escStr, List.append_assoc]
      by_cases h1 : c = '"'
      · subst h1; simp [escChar, parseStringBodyF, decodeEsc, simpleEsc, ihr]
      by_cases h2 : c = '\\'
      · subst h2; simp [escChar, parseStringBodyF, decodeEsc, simpleEsc, ihr]
      by_cases h3 : c = '\x08'
      · subst h3; simp [escChar, parseStringBodyF, decodeEsc, simpleEsc, ihr]
      by_cases h4 : c = '\t'
      · subst h4; simp [escChar, parseStringBodyF, decodeEsc, simpleEsc, ihr]
      by_cases h5 : c = '\n'
      · subst h5; simp [escChar, parseStringBodyF, decodeEsc, simpleEsc, ihr]
      by_cases h6 : c = '\x0c'
      · subst h6; simp [escChar, parseStringBodyF, decodeEsc, simpleEsc, ihr]
      by_cases h7 : c = '\r'
      · subst h7; simp [escChar, parseStringBodyF, decodeEsc, simpleEsc, ihr]
      by_cases h8 : c.toNat < 32
      · have hesc : escChar c = ['\\', 'u', '0', '0', hexCh (c.toNat / 16), hexCh (c.toNat % 16)] := by
          rw [escChar, if_neg h1, if_neg h2, if_neg h3, if_neg h4, if_neg h5,
            if_neg h6, if_neg h7, if_pos h8]
        rw [hesc]
        have hhi : hexVal (hexCh (c.toNat / 16)) = some (c.toNat / 16) :=
          hexCh_val (by omega)
        have hlo : hexVal (hexCh (c.toNat % 16)) = some (c.toNat % 16) :=
          hexCh_val (Nat.mod_lt _ (by omega))
        have h0 : hexVal '0' = some 0 := by decide
        have huesc : uEscVal '0' '0' (hexCh (c.toNat / 16)) (hexCh (c.toNat % 16)) =
            some c.toNat := by
          simp only [uEscVal, h0, hhi, hlo]
          rw [if_pos (Or.inl (by omega))]
          have hn : ((0 * 16 + 0) * 16 + c.toNat / 16) * 16 + c.toNat % 16 = c.toNat := by
            omega
          simp only [hn]
        show parseStringBodyF (f + 1) ('\\' :: 'u' :: '0' :: '0' :: hexCh (c.toNat / 16) ::
          hexCh (c.toNat % 16) :: (escStr cs ++ '"' :: rest)) = some (c :: cs, rest)
        simp [parseStringBodyF, decodeEsc, simpleEsc, huesc, Char.ofNat_toNat, ihr]
      · have hesc : escChar c = [c] := by
          rw [escChar, if_neg h1, if_neg h2, if_neg h3, if_neg h4, if_neg h5,
            if_neg h6, if_neg h7, if_neg h8]
        rw [hesc]
        show parseStringBodyF (f + 1) (c :: (escStr cs ++ '"' :: rest)) = some (c :: cs, rest)
        rw [parseStringBodyF]
        simp [h1, h2, h8, ihr]

theorem parseStringBody_escStr (s : Str) : ∀ rest : Str,
    parseStringBody (escStr s ++ '"' :: rest) = some (s, rest) := by
  intro rest
  rw [parseStringBody]
  refine parseStringBodyF_escStr s _ rest ?_
  rw [List.length_append]
  omega

/-! ## Head shape of stringified values, size bounds, object-member lemmas -/

theorem char_ne_of_toNat_ne {c d : Char} (h : c.toNat ≠ d.toNat) : c ≠ d :=
  fun he => h (by rw [he])

theorem digit_head_facts {c : Char} (hdig : c.isDigit = true) :
    isWsChar c = false ∧ c ≠ ']' ∧ c ≠ '}' ∧ c ≠ ',' ∧
      c ≠ 'n' ∧ c ≠ 't' ∧ c ≠ 'f' ∧ c ≠ '"' ∧ c ≠ '[' ∧ c ≠ '{' := by
  obtain ⟨hlo, hhi⟩ := isDigit_toNat hdig
  have hne : ∀ d : Char, d.toNat < 48 ∨ 57 < d.toNat → c ≠ d := fun d hd =>
    char_ne_of_toNat_ne (by omega)
  refine ⟨?_, hne ']' (by decide), hne '}' (by decide), hne ',' (by decide),
    hne 'n' (by decide), hne 't' (by decide), hne 'f' (by decide),
    hne '"' (by decide), hne '[' (by decide), hne '{' (by decide)⟩
  simp [isWsChar, hne ' ' (by decide), hne '\t' (by decide),
    hne '\n' (by decide), hne '\r' (by decide)]

theorem strV_cons (v : Json) :
    ∃ c t, strV v = c :: t ∧ isWsChar c = false ∧ c ≠ ']' ∧ c ≠ '}' ∧ c ≠ ',' := by
  cases v with
  | null => exact ⟨'n', _, rfl, by decide, by decide, by decide, by decide⟩
  | bool b =>
    cases b with
    | true => exact ⟨'t', _, rfl, by decide, by decide, by decide, by decide⟩
    | false => exact ⟨'f', _, rfl, by decide, by decide, by decide, by decide⟩
  | num n =>
    show ∃ c t, intToChars n = c :: t ∧ _
    rw [intToChars]
    by_cases hn : n < 0
    · rw [if_pos hn]
      exact ⟨'-', _, rfl, by decide, by decide, by decide, by decide⟩
    · rw [if_neg hn]
      obtain ⟨c, t, heq⟩ : ∃ c t, natToChars n.natAbs = c :: t := by
        cases hX : natToChars n.natAbs with
        | nil => exact absurd hX (natToChars_ne_nil _)
        | cons c t => exact ⟨c, t, rfl⟩
      have hdig : c.isDigit = true :=
        natToChars_all_digits n.natAbs c (by rw [heq]; simp)
      obtain ⟨hw, hr1, hr2, hr3, _⟩ := digit_head_facts hdig
      exact ⟨c, t, heq, hw, hr1, hr2, hr3⟩
  | str s => exact ⟨'"', _, rfl, by decide, by decide, by decide, by decide⟩
  | arr a => exact ⟨'[', _, rfl, by decide, by decide, by decide, by decide⟩
  | obj o => exact ⟨'{', _, rfl, by decide, by decide, by decide, by decide⟩

theorem sizeV_pos (v : Json) : 1 ≤ sizeV v := by
  cases v <;> simp [sizeV]

theorem sizeA_pos {a : JsonArr} (h : a ≠ JsonArr.nil) : 1 ≤ sizeA a := by
  cases a with
  | nil => exact absurd rfl h
  | cons hd tl => simp [sizeA]

theorem sizeO_pos {o : JsonObj} (h : o ≠ JsonObj.nil) : 1 ≤ sizeO o := by
  cases o with
  | nil => exact absurd rfl h
  | cons k v tl => simp [sizeO]

mutual

theorem sizeV_le_len (v : Json) : sizeV v ≤ (strV v).length := by
  cases v with
  | null => simp [sizeV, strV]
  | bool b => cases b <;> simp [sizeV, strV]
  | num n =>
    have h1 : 1 ≤ (intToChars n).length := by
      rw [intToChars]
      split
      · simp
      · have := natToChars_ne_nil n.natAbs
        cases hX : natToChars n.natAbs with
        | nil => exact absurd hX this
        | cons c t => simp [hX]
    simpa [sizeV, strV] using h1
  | str s => simp [sizeV, strV]
  | arr a =>
    have := sizeA_le_len a
    simp [sizeV, strV]
    omega
  | obj o =>
    have := sizeO_le_len o
    simp [sizeV, strV]
    omega

theorem sizeA_le_len (a : JsonArr) : sizeA a ≤ (strElems a).length + 1 := by
  cases a with
  | nil => simp [sizeA, strElems]
  | cons h tl =>
    cases tl with
    | nil =>
      have := sizeV_le_len h
      simp [sizeA, strElems, sizeA.eq_def]
      omega
    | cons h2 tl2 =>
      have hv := sizeV_le_len h
      have ha := sizeA_le_len (JsonArr.cons h2 tl2)
      simp [sizeA, strElems] at *
      omega

theorem sizeO_le_len (o : JsonObj) : sizeO o ≤ (strMembers o).length + 1 := by
  cases o with
  | nil => simp [sizeO, strMembers]
  | cons k v tl =>
    cases tl with
    | nil =>
      have := sizeV_le_len v
      simp [sizeO, strMembers, sizeO.eq_def]
      omega
    | cons k2 v2 tl2 =>
      have hv := sizeV_le_len v
      have ho := sizeO_le_len (JsonObj.cons k2 v2 tl2)
      simp [sizeO, strMembers] at *
      omega

end

theorem objAppend_nil (o : JsonObj) : objAppend o JsonObj.nil = o := by
  cases o with
  | nil => rfl
  | cons k v tl => rw [objAppend, objAppend_nil tl]

theorem objAppend_assoc (a b c : JsonObj) :
    objAppend (objAppend a b) c = objAppend a (objAppend b c) := by
  cases a with
  | nil => rfl
  | cons k v tl => rw [objAppend, objAppend, objAppend, objAppend_assoc tl]

theorem objSet_fresh {o : JsonObj} {k : Str} (v : Json) (h : ¬ k ∈ objKeys o) :
    objSet o k v = objAppend o (JsonObj.cons k v JsonObj.nil) := by
  cases o with
  | nil => rfl
  | cons k1 v1 tl =>
    simp [objKeys] at h
    rw [objSet, objAppend, if_neg (fun he => h.1 he.symm),
      objSet_fresh v (fun hm => h.2 hm)]

theorem objKeys_objAppend (a b : JsonObj) :
    objKeys (objAppend a b) = objKeys a ++ objKeys b := by
  cases a with
  | nil => rfl
  | cons k v tl => rw [objAppend, objKeys, objKeys, objKeys_objAppend tl,
      List.cons_append]

theorem mem_objKeys_objSet (k' : Str) (o : JsonObj) (k : Str) (v : Json) :
    k' ∈ objKeys (objSet o k v) ↔ k' ∈ objKeys o ∨ k' = k := by
  cases o with
  | nil => simp [objSet, objKeys]
  | cons k1 v1 tl =>
    rw [objSet]
    by_cases hk : k1 = k
    · rw [if_pos hk]
      subst hk
      simp [objKeys]
      tauto
    · rw [if_neg hk]
      simp [objKeys, mem_objKeys_objSet k' tl k v]
      tauto

theorem keysNoDup_objSet {o : JsonObj} (k : Str) (v : Json)
    (h : keysNoDup o = true) : keysNoDup (objSet o k v) = true := by
  cases o with
  | nil => simp [objSet, keysNoDup, objKeys]
  | cons k1 v1 tl =>
    rw [keysNoDup] at h
    simp at h
    rw [objSet]
    by_cases hk : k1 = k
    · rw [if_pos hk]
      rw [keysNoDup]
      simp [h.1, h.2]
    · rw [if_neg hk]
      rw [keysNoDup]
      simp [mem_objKeys_objSet, h.1, hk, keysNoDup_objSet k v h.2]

theorem wfO_objSet {o : JsonObj} {k : Str} {v : Json}
    (hv : wfV v = true) (h : wfO o = true) : wfO (objSet o k v) = true := by
  cases o with
  | nil => simp [objSet, wfO, hv]
  | cons k1 v1 tl =>
    rw [wfO] at h
    simp at h
    rw [objSet]
    by_cases hk : k1 = k
    · rw [if_pos hk, wfO]
      simp [hv, h.2]
    · rw [if_neg hk, wfO]
      simp [h.1, wfO_objSet hv h.2]

/-- Every value produced by the parser is well-formed: object nodes built with
`objSet` have pairwise-distinct keys. -/
theorem parse_wf (fuel : Nat) :
    (∀ cs v r, parseV fuel cs = some (v, r) → wfV v = true) ∧
    (∀ cs a r, parseElems fuel cs = some (a, r) → wfA a = true) ∧
    (∀ acc cs o r, keysNoDup acc = true → wfO acc = true →
      parseMembers fuel acc cs = some (o, r) →
      keysNoDup o = true ∧ wfO o = true) := by
  induction fuel with
  | zero =>
    refine ⟨?_, ?_, ?_⟩
    · intro cs v r h; exact absurd h (by simp [parseV])
    · intro cs a r h; exact absurd h (by simp [parseElems])
    · intro acc cs o r _ _ h; exact absurd h (by simp [parseMembers])
  | succ f ih =>
    obtain ⟨ihV, ihA, ihO⟩ := ih
    refine ⟨?_, ?_, ?_⟩
    · intro cs v r h
      rw [parseV] at h
      split at h
      · exact absurd h (by simp)
      split at h
      · obtain ⟨r1, _, hvr⟩ := Option.map_eq_some'.mp h
        cases hvr
        simp [wfV]
      split at h
      · obtain ⟨r1, _, hvr⟩ := Option.map_eq_some'.mp h
        cases hvr
        simp [wfV]
      split at h
      · obtain ⟨r1, _, hvr⟩ := Option.map_eq_some'.mp h
        cases hvr
        simp [wfV]
      split at h
      · obtain ⟨p, _, hvr⟩ := Option.map_eq_some'.mp h
        cases hvr
        simp [wfV]
      split at h
      · split at h
        · exact absurd h (by simp)
        · split at h
          · injection h with h
            injection h with h1 _
            subst h1
            simp [wfV, wfA]
          · obtain ⟨p, hp, hvr⟩ := Option.map_eq_some'.mp h
            cases hvr
            have := ihA _ p.1 p.2 (by simpa using hp)
            simp [wfV, this]
      split at h
      · split at h
        · exact absurd h (by simp)
        · split at h
          · injection h with h
            injection h with h1 _
            subst h1
            simp [wfV, keysNoDup, wfO]
          · obtain ⟨p, hp, hvr⟩ := Option.map_eq_some'.mp h
            cases hvr
            have := ihO JsonObj.nil _ p.1 p.2 rfl rfl (by simpa using hp)
            simp [wfV, this.1, this.2]
      · obtain ⟨p, _, hvr⟩ := Option.map_eq_some'.mp h
        cases hvr
        simp [wfV]
    · intro cs a r h
      rw [parseElems] at h
      split at h
      · exact absurd h (by simp)
      · rename_i v rest hv
        split at h
        · exact absurd h (by simp)
        · split at h
          · obtain ⟨p, hp, hvr⟩ := Option.map_eq_some'.mp h
            cases hvr
            have h1 := ihV _ _ _ hv
            have h2 := ihA _ p.1 p.2 (by simpa using hp)
            simp [wfA, h1, h2]
          · split at h
            · injection h with h
              injection h with h1 _
              subst h1
              have h1 := ihV _ _ _ hv
              simp [wfA, h1]
            · exact absurd h (by simp)
    · intro acc cs o r hnd hwf h
      rw [parseMembers] at h
      split at h
      · exact absurd h (by simp)
      · split at h
        · split at h
          · exact absurd h (by simp)
          · split at h
            · exact absurd h (by simp)
            · split at h
              · split at h
                · exact absurd h (by simp)
                · rename_i v r3 hv
                  split at h
                  · exact absurd h (by simp)
                  · have hwfv := ihV _ _ _ hv
                    split at h
                    · exact ihO _ _ o r
                        (keysNoDup_objSet _ _ hnd) (wfO_objSet hwfv hwf) h
                    · split at h
                      · injection h with h
                        injection h with h1 _
                        subst h1
                        exact ⟨keysNoDup_objSet _ _ hnd, wfO_objSet hwfv hwf⟩
                      · exact absurd h (by simp)
              · exact absurd h (by simp)
        · exact absurd h (by simp)

end AF

namespace AF

theorem headIs_cons (p : Char → Bool) (c : Char) (cs : Str) : headIs p (c :: cs) = p c := rfl

theorem not_ws_parts {c : Char} (h : isWsChar c = false) :
    c ≠ ' ' ∧ c ≠ '\t' ∧ c ≠ '\n' ∧ c ≠ '\r' := by
  refine ⟨?_, ?_, ?_, ?_⟩ <;> intro he <;> subst he <;> simp [isWsChar] at h

theorem strElems_cons (h1 : Json) (tl : JsonArr) :
    ∃ X, strElems (JsonArr.cons h1 tl) = strV h1 ++ X := by
  cases tl with
  | nil => exact ⟨[], by simp [strElems]⟩
  | cons h2 tl2 => exact ⟨',' :: strElems (JsonArr.cons h2 tl2), rfl⟩

theorem strMembers_cons (k : Str) (v : Json) (tl : JsonObj) :
    ∃ X, strMembers (JsonObj.cons k v tl) = '"' :: X := by
  cases tl with
  | nil => exact ⟨escStr k ++ '"' :: ':' :: strV v, rfl⟩
  | cons k2 v2 tl2 =>
    exact ⟨escStr k ++ '"' :: ':' :: strV v ++ ',' :: strMembers (JsonObj.cons k2 v2 tl2), rfl⟩

theorem parse_rt (fuel : Nat) :
    (∀ v rest, wfV v = true → headIs numFollowBad rest = false → sizeV v < fuel →
      parseV fuel (strV v ++ rest) = some (v, rest)) ∧
    (∀ a rest, a ≠ JsonArr.nil → wfA a = true → sizeA a < fuel →
      parseElems fuel (strElems a ++ ']' :: rest) = some (a, rest)) ∧
    (∀ o acc rest, o ≠ JsonObj.nil → keysNoDup o = true → wfO o = true →
      (∀ k, k ∈ objKeys o → ¬ k ∈ objKeys acc) → sizeO o < fuel →
      parseMembers fuel acc (strMembers o ++ '}' :: rest) =
        some (objAppend acc o, rest)) := by
  induction fuel with
  | zero =>
    refine ⟨?_, ?_, ?_⟩
    · intro v rest _ _ hs
      exact absurd hs (by have := sizeV_pos v; omega)
    · intro a rest hne _ hs
      exact absurd hs (by have := sizeA_pos hne; omega)
    · intro o acc rest hne _ _ _ hs
      exact absurd hs (by have := sizeO_pos hne; omega)
  | succ f ih =>
    obtain ⟨ihV, ihA, ihO⟩ := ih
    refine ⟨?_, ?_, ?_⟩
    · intro v rest hwf hrest hsize
      cases v with
      | null => simp [strV, parseV, skipWs, isWsChar, stripLit]
      | bool b => cases b <;> simp [strV, parseV, skipWs, isWsChar, stripLit]
      | num n =>
        have hpn := parseNum_intToChars n hrest
        by_cases hn : n < 0
        · have hic : intToChars n = '-' :: natToChars n.natAbs := by
            rw [intToChars, if_pos hn]
          rw [hic, List.cons_append] at hpn
          simp only [strV, hic, List.cons_append]
          simp [parseV, skipWs, isWsChar, hpn]
        · have hic : intToChars n = natToChars n.natAbs := by
            rw [intToChars, if_neg hn]
          obtain ⟨c, t, heq⟩ : ∃ c t, natToChars n.natAbs = c :: t := by
            cases hX : natToChars n.natAbs with
            | nil => exact absurd hX (natToChars_ne_nil _)
            | cons c t => exact ⟨c, t, rfl⟩
          have hdig : c.isDigit = true :=
            natToChars_all_digits n.natAbs c (by rw [heq]; simp)
          obtain ⟨hw, -, -, -, hn1, hn2, hn3, hn4, hn5, hn6⟩ := digit_head_facts hdig
          rw [hic, heq, List.cons_append] at hpn
          simp only [strV, hic, heq, List.cons_append]
          simp [parseV, skipWs, hw, hn1, hn2, hn3, hn4, hn5, hn6, hpn]
      | str s =>
        have hsh : strV (Json.str s) ++ rest = '"' :: (escStr s ++ '"' :: rest) := by
          simp [strV]
        rw [hsh]
        simp [parseV, skipWs, isWsChar, parseStringBody_escStr]
      | arr a =>
        cases a with
        | nil =>
          have hsh : strV (Json.arr JsonArr.nil) ++ rest = '[' :: ']' :: rest := by
            simp [strV, strElems]
          rw [hsh]
          simp [parseV, skipWs, isWsChar]
        | cons h1 tl =>
          simp only [wfV] at hwf
          simp only [sizeV] at hsize
          obtain ⟨c, t, hceq, hw, hne1, hne2, hne3⟩ := strV_cons h1
          obtain ⟨X, hX⟩ := strElems_cons h1 tl
          have hfull : strV (Json.arr (JsonArr.cons h1 tl)) ++ rest =
              '[' :: (c :: (t ++ X ++ ']' :: rest)) := by
            simp [strV, hX, hceq]
          have hinner : strElems (JsonArr.cons h1 tl) ++ ']' :: rest =
              c :: (t ++ X ++ ']' :: rest) := by
            simp [hX, hceq]
          have helems := ihA (JsonArr.cons h1 tl) rest (by simp) hwf (by omega)
          rw [hinner] at helems
          rw [hfull]
          obtain ⟨hwa, hwb, hwc, hwd⟩ := not_ws_parts hw
          simp [parseV, skipWs, isWsChar, hwa, hwb, hwc, hwd, hne1]
          simpa [List.append_assoc] using helems
      | obj o =>
        cases o with
        | nil =>
          have hsh : strV (Json.obj JsonObj.nil) ++ rest = '{' :: '}' :: rest := by
            simp [strV, strMembers]
          rw [hsh]
          simp [parseV, skipWs, isWsChar]
        | cons k v tl =>
          simp only [wfV, Bool.and_eq_true] at hwf
          simp only [sizeV] at hsize
          obtain ⟨X, hX⟩ := strMembers_cons k v tl
          have hfull : strV (Json.obj (JsonObj.cons k v tl)) ++ rest =
              '{' :: ('"' :: (X ++ '}' :: rest)) := by
            simp [strV, hX]
          have hinner : strMembers (JsonObj.cons k v tl) ++ '}' :: rest =
              '"' :: (X ++ '}' :: rest) := by
            simp [hX]
          have hmem := ihO (JsonObj.cons k v tl) JsonObj.nil rest (by simp)
            hwf.1 hwf.2 (by intro k' _; simp [objKeys]) (by omega)
          rw [hinner] at hmem
          rw [hfull]
          simp [parseV, skipWs, isWsChar, hmem, objAppend]
    · intro a rest hne hwf hsize
      cases a with
      | nil => exact absurd rfl hne
      | cons h1 tl =>
        simp only [wfA, Bool.and_eq_true] at hwf
        simp only [sizeA] at hsize
        cases tl with
        | nil =>
          have h1v := ihV h1 (']' :: rest) hwf.1
            (by rw [headIs_cons]; decide) (by omega)
          simp [parseElems, strElems, h1v, skipWs, isWsChar]
        | cons h2 tl2 =>
          have hsh : strElems (JsonArr.cons h1 (JsonArr.cons h2 tl2)) ++ ']' :: rest =
              strV h1 ++ (',' :: (strElems (JsonArr.cons h2 tl2) ++ ']' :: rest)) := by
            simp [strElems]
          have h1v := ihV h1 (',' :: (strElems (JsonArr.cons h2 tl2) ++ ']' :: rest))
            hwf.1 (by rw [headIs_cons]; decide) (by omega)
          have htl := ihA (JsonArr.cons h2 tl2) rest (by simp) hwf.2 (by omega)
          rw [hsh]
          simp [parseElems, h1v, skipWs, isWsChar, htl]
    · intro o acc rest hne hnd hwf hdisj hsize
      cases o with
      | nil => exact absurd rfl hne
      | cons k v tl =>
        rw [keysNoDup] at hnd
        simp at hnd
        rw [wfO] at hwf
        simp at hwf
        simp only [sizeO] at hsize
        have hkfresh : ¬ k ∈ objKeys acc := hdisj k (by simp [objKeys])
        cases tl with
        | nil =>
          have hsh : strMembers (JsonObj.cons k v JsonObj.nil) ++ '}' :: rest =
              '"' :: (escStr k ++ '"' :: (':' :: (strV v ++ '}' :: rest))) := by
            simp [strMembers]
          have hval := ihV v ('}' :: rest) hwf.1 (by rw [headIs_cons]; decide) (by omega)
          rw [hsh]
          simp [parseMembers, skipWs, isWsChar, parseStringBody_escStr, hval,
            objSet_fresh v hkfresh]
        | cons k2 v2 tl2 =>
          have hsh : strMembers (JsonObj.cons k v (JsonObj.cons k2 v2 tl2)) ++ '}' :: rest =
              '"' :: (escStr k ++ '"' :: (':' :: (strV v ++
                (',' :: (strMembers (JsonObj.cons k2 v2 tl2) ++ '}' :: rest))))) := by
            simp [strMembers]
          have hval := ihV v
            (',' :: (strMembers (JsonObj.cons k2 v2 tl2) ++ '}' :: rest))
            hwf.1 (by rw [headIs_cons]; decide) (by omega)
          have hdisj2 : ∀ k', k' ∈ objKeys (JsonObj.cons k2 v2 tl2) →
              ¬ k' ∈ objKeys (objSet acc k v) := by
            intro k' hk' hmem
            rw [mem_objKeys_objSet] at hmem
            rcases hmem with hmem | hmem
            · refine hdisj k' ?_ hmem
              simp [objKeys] at hk' ⊢
              tauto
            · subst hmem
              exact hnd.1 hk'
          have htl := ihO (JsonObj.cons k2 v2 tl2) (objSet acc k v) rest (by simp)
            hnd.2 hwf.2 hdisj2 (by omega)
          have happ : objAppend (objSet acc k v) (JsonObj.cons k2 v2 tl2) =
              objAppend acc (JsonObj.cons k v (JsonObj.cons k2 v2 tl2)) := by
            rw [objSet_fresh v hkfresh, objAppend_assoc]
            rfl
          rw [hsh]
          simp [parseMembers, skipWs, isWsChar, parseStringBody_escStr, hval, htl, happ]

end AF

namespace AF

theorem dropToBrace_shape {s u : Str} (h : dropToBrace s = some u) :
    ∃ t, u = '{' :: t := by
  induction s with
  | nil => simp [dropToBrace] at h
  | cons c cs ih =>
    rw [dropToBrace] at h
    by_cases hc : c = '{'
    · rw [if_pos hc] at h
      injection h with h
      subst hc
      exact ⟨cs, h.symm⟩
    · rw [if_neg hc] at h
      exact ih h

theorem takeThruLastBrace_ends (xs : Str) :
    takeThruLastBrace (xs ++ ['}']) = some (xs ++ ['}']) := by
  rw [takeThruLastBrace]
  have hrev : (xs ++ ['}']).reverse = '}' :: xs.reverse := by simp
  rw [hrev]
  rw [List.dropWhile_cons]
  simp

theorem takeThruLastBrace_head {c : Char} {u span : Str}
    (h : takeThruLastBrace (c :: u) = some span) : ∃ t, span = c :: t := by
  rw [takeThruLastBrace] at h
  split at h
  · exact absurd h (by simp)
  · rename_i hne
    injection h with h
    have hsuf : (c :: u).reverse.dropWhile (fun d => ¬ d = '}') <:+ (c :: u).reverse :=
      List.dropWhile_suffix _
    have hpre : ((c :: u).reverse.dropWhile (fun d => ¬ d = '}')).reverse <+: (c :: u) := by
      have := List.reverse_prefix.mpr hsuf
      simpa using this
    rw [h] at hpre
    rcases List.prefix_cons_iff.mp hpre with hnil | ⟨t, ht, _⟩
    · rw [hnil] at h
      exact absurd (List.reverse_eq_nil_iff.mp h) hne
    · exact ⟨t, ht⟩

theorem braceSpan_shape {s span : Str} (h : braceSpan s = some span) :
    ∃ t, span = '{' :: t := by
  rw [braceSpan] at h
  cases hd : dropToBrace s with
  | none => rw [hd] at h; exact absurd h (by simp)
  | some u =>
    rw [hd] at h
    rw [show (some u).bind takeThruLastBrace = takeThruLastBrace u from rfl] at h
    obtain ⟨t, ht⟩ := dropToBrace_shape hd
    subst ht
    exact takeThruLastBrace_head h

theorem braceSpan_canonical (xs : Str) :
    braceSpan ('{' :: (xs ++ ['}'])) = some ('{' :: (xs ++ ['}'])) := by
  rw [braceSpan]
  have h1 : dropToBrace ('{' :: (xs ++ ['}'])) = some ('{' :: (xs ++ ['}'])) := by
    rw [dropToBrace]
    simp
  rw [h1]
  rw [show (some ('{' :: (xs ++ ['}']))).bind takeThruLastBrace =
    takeThruLastBrace ('{' :: (xs ++ ['}'])) from rfl]
  have h2 : '{' :: (xs ++ ['}']) = ('{' :: xs) ++ ['}'] := by simp
  rw [h2, takeThruLastBrace_ends]

theorem parseV_brace_obj {fuel : Nat} {cs r : Str} {v : Json}
    (h : parseV fuel ('{' :: cs) = some (v, r)) : ∃ o, v = Json.obj o := by
  cases fuel with
  | zero => exact absurd h (by simp [parseV])
  | succ f =>
    rw [parseV] at h
    rw [skipWs_cons_not _ (by decide)] at h
    simp only [] at h
    rw [if_neg (by decide), if_neg (by decide), if_neg (by decide),
      if_neg (by decide), if_neg (by decide)] at h
    rw [if_pos (by trivial)] at h
    split at h
    · exact absurd h (by simp)
    · split at h
      · injection h with h
        injection h with h1 _
        exact ⟨JsonObj.nil, h1.symm⟩
      · obtain ⟨p, _, hvr⟩ := Option.map_eq_some'.mp h
        injection hvr with h1 _
        exact ⟨p.1, h1.symm⟩

theorem jsonParse_obj {s : Str} {v : Json} (hs : ∃ t, s = '{' :: t)
    (h : jsonParse s = some v) : ∃ o, v = Json.obj o := by
  obtain ⟨t, ht⟩ := hs
  rw [jsonParse] at h
  split at h
  · rename_i v' rest hp
    split at h
    · injection h with h
      subst h
      subst ht
      exact parseV_brace_obj hp
    · exact absurd h (by simp)
  · exact absurd h (by simp)

theorem jsonParse_wf {s : Str} {v : Json} (h : jsonParse s = some v) :
    wfV v = true := by
  rw [jsonParse] at h
  split at h
  · rename_i v' rest hp
    split at h
    · injection h with h
      subst h
      exact (parse_wf _).1 _ _ _ hp
    · exact absurd h (by simp)
  · exact absurd h (by simp)

theorem jsonParse_strV {o : JsonObj} (hwf : wfV (Json.obj o) = true) :
    jsonParse (strV (Json.obj o)) = some (Json.obj o) := by
  have hsz : sizeV (Json.obj o) < (strV (Json.obj o)).length + 1 := by
    have := sizeV_le_len (Json.obj o)
    omega
  have hrt := (parse_rt ((strV (Json.obj o)).length + 1)).1 (Json.obj o) []
    hwf rfl hsz
  rw [List.append_nil] at hrt
  rw [jsonParse, hrt]
  simp [skipWs]

theorem extractJson_shape {line : Str} {m : Json} (h : extractJson line = some m) :
    (∃ o, m = Json.obj o) ∧ wfV m = true := by
  rw [extractJson] at h
  split at h
  · exact absurd h (by simp)
  · split at h
    · exact absurd h (by simp)
    · rename_i span hspan
      exact ⟨jsonParse_obj (braceSpan_shape hspan) h, jsonParse_wf h⟩

theorem extractJson_stringify {line : Str} {m : Json}
    (h : extractJson line = some m) : extractJson (strV m) = some m := by
  obtain ⟨⟨o, ho⟩, hwf⟩ := extractJson_shape h
  subst ho
  have hstr : strV (Json.obj o) = '{' :: (strMembers o ++ ['}']) := by
    simp [strV]
  rw [extractJson, if_neg (by rw [hstr]; simp)]
  rw [hstr, braceSpan_canonical, ← hstr]
  exact jsonParse_strV hwf

/-! ## Calendar arithmetic (model of the JavaScript `Date` constructor and
`getFullYear`, in UTC)

`new Date(y, mIdx, d, h, mi, s, ms)` normalizes an out-of-range month index by
rollover into the year, maps two-digit years to 19xx, and is affine in the
day/hour/minute/second/millisecond arguments.  The day count for a civil date
uses the standard proleptic-Gregorian era decomposition. -/

/-- Days from the civil epoch 1970-01-01 for year/month (1..12)/day; affine in
`d`, so out-of-range days roll over exactly as in JavaScript. -/
def daysFromCivil (y m d : Int) : Int :=
  let y2 := y - (if m ≤ 2 then 1 else 0)
  let era := y2.fdiv 400
  let yoe := y2 - era * 400
  let mp := m + (if 2 < m then -3 else 9)
  let doy := (153 * mp + 2).fdiv 5 + d - 1
  let doe := yoe * 365 + yoe.fdiv 4 - yoe.fdiv 100 + doy
  era * 146097 + doe - 719468

/-- Epoch milliseconds of `new Date(y, monthIndex, d, h, mi, s, ms)` (local
time modelled as UTC).  Two-digit years map to 1900+y; month overflow rolls
into the year. -/
def mkDateMs (y mIdx d h mi s ms : Int) : Int :=
  let yFull := if 0 ≤ y ∧ y ≤ 99 then 1900 + y else y
  let ym := yFull + mIdx.fdiv 12
  let m0 := mIdx.emod 12
  ((((daysFromCivil ym (m0 + 1) d) * 24 + h) * 60 + mi) * 60 + s) * 1000 + ms

/-- The civil year containing an epoch-day count (Gregorian). -/
def yearOfDays (z : Int) : Int :=
  let z2 := z + 719468
  let era := z2.fdiv 146097
  let doe := z2 - era * 146097
  let yoe := (doe - doe.fdiv 1460 + doe.fdiv 36524 - doe.fdiv 146096).fdiv 365
  let y := yoe + era * 400
  let doy := doe - (365 * yoe + yoe.fdiv 4 - yoe.fdiv 100)
  let mp := (5 * doy + 2).fdiv 153
  let m := mp + (if mp < 10 then 3 else -9)
  y + (if m ≤ 2 then 1 else 0)

/-- `Date.prototype.getFullYear` (UTC model) of an epoch-millisecond value. -/
def yearOfMs (ms : Int) : Int := yearOfDays (ms.fdiv 86400000)

/-! ## `parseLogcatTimestamp` (src/logcat/parse.ts)

Two anchored formats: full `YYYY-MM-DD HH:MM:SS.mmm` and short
`MM-DD HH:MM:SS.mmm`; otherwise the first 18 characters are returned as a
display string with no epoch value.  For the short form the year is inferred
from "now", decrementing once when the instant would lie more than 24 hours in
the future. -/

/-- Numeric value of two digit characters. -/
def digit2 (a b : Char) : Int := ((a.toNat - 48) * 10 + (b.toNat - 48) : Nat)

/-- Numeric value of three digit characters. -/
def digit3 (a b c : Char) : Int :=
  (((a.toNat - 48) * 100 + (b.toNat - 48) * 10 + (c.toNat - 48) : Nat))

/-- Numeric value of four digit characters. -/
def digit4 (a b c d : Char) : Int :=
  (((a.toNat - 48) * 1000 + (b.toNat - 48) * 100 + (c.toNat - 48) * 10 +
    (d.toNat - 48) : Nat))

/-- Anchored match of `^(\d{4})-(\d{2})-(\d{2}) (\d{2}):(\d{2}):(\d{2})\.(\d{3})`. -/
def matchFullTs : Str → Option (Int × Int × Int × Int × Int × Int × Int)
  | y1 :: y2 :: y3 :: y4 :: s1 :: o1 :: o2 :: s2 :: d1 :: d2 :: s3 ::
      h1 :: h2 :: s4 :: i1 :: i2 :: s5 :: x1 :: x2 :: s6 :: f1 :: f2 :: f3 :: _ =>
    if y1.isDigit && y2.isDigit && y3.isDigit && y4.isDigit && s1 = '-' &&
        o1.isDigit && o2.isDigit && s2 = '-' && d1.isDigit && d2.isDigit &&
        s3 = ' ' && h1.isDigit && h2.isDigit && s4 = ':' && i1.isDigit &&
        i2.isDigit && s5 = ':' && x1.isDigit && x2.isDigit && s6 = '.' &&
        f1.isDigit && f2.isDigit && f3.isDigit then
      some (digit4 y1 y2 y3 y4, digit2 o1 o2, digit2 d1 d2, digit2 h1 h2,
        digit2 i1 i2, digit2 x1 x2, digit3 f1 f2 f3)
    else none
  | _ => none

/-- Anchored match of `^(\d{2})-(\d{2}) (\d{2}):(\d{2}):(\d{2})\.(\d{3})`. -/
def matchShortTs : Str → Option (Int × Int × Int × Int × Int × Int)
  | o1 :: o2 :: s2 :: d1 :: d2 :: s3 ::
      h1 :: h2 :: s4 :: i1 :: i2 :: s5 :: x1 :: x2 :: s6 :: f1 :: f2 :: f3 :: _ =>
    if o1.isDigit && o2.isDigit && s2 = '-' && d1.isDigit && d2.isDigit &&
        s3 = ' ' && h1.isDigit && h2.isDigit && s4 = ':' && i1.isDigit &&
        i2.isDigit && s5 = ':' && x1.isDigit && x2.isDigit && s6 = '.' &&
        f1.isDigit && f2.isDigit && f3.isDigit then
      some (digit2 o1 o2, digit2 d1 d2, digit2 h1 h2,
        digit2 i1 i2, digit2 x1 x2, digit3 f1 f2 f3)
    else none
  | _ => none

/-- `parseLogcatTimestamp`, with the current instant passed explicitly. -/
def parseLogcatTimestamp (nowMs : Int) (line : Str) : Str × Option Int :=
  match matchFullTs line with
  | some (y, mo, d, h, mi, s, ms) =>
    (line.take 23, some (mkDateMs y (mo - 1) d h mi s ms))
  | none =>
    match matchShortTs line with
    | some (mo, d, h, mi, s, ms) =>
      let year := yearOfMs nowMs
      let date := mkDateMs year (mo - 1) d h mi s ms
      if nowMs + 24 * 60 * 60 * 1000 < date then
        (line.take 18, some (mkDateMs (year - 1) (mo - 1) d h mi s ms))
      else
        (line.take 18, some date)
    | none => (line.take 18, none)

/-! ## `getParsedAppsflyerFilters` (src/logcat/parse.ts) -/

/-- A structured record parsed from one buffer line (`ParsedLog`). -/
structure ParsedLog where
  timestamp : Str
  timestampMs : Option Int
  type : Str
  json : Json
deriving DecidableEq

/-- Does a line pass the buffer filter: the product marker plus, when given,
the classification keyword. -/
def matchesFilter (kw : Option Str) (line : Str) : Bool :=
  containsSub ("AppsFlyer".data) line &&
    (match kw with
     | some k => containsSub k line
     | none => true)

/-- `Array.prototype.slice(-n)`: the at-most-`n` most recent entries. -/
def sliceLast (n : Nat) (l : List Str) : List Str := l.drop (l.length - n)

/-- Parse one line into a `ParsedLog`, or `none` when JSON extraction fails. -/
def parseLine (kw : Option Str) (nowMs : Int) (line : Str) : Option ParsedLog :=
  match extractJson line with
  | none => none
  | some json =>
    let ts := parseLogcatTimestamp nowMs line
    some { timestamp := ts.1, timestampMs := ts.2,
           type := kw.getD ("ALL".data), json := json }

/-- `getParsedAppsflyerFilters`: filter the buffer, keep the most recent 700
matches, parse each, and drop the ones whose JSON extraction fails. -/
def getParsedAppsflyerFilters (buffer : List Str) (kw : Option Str)
    (nowMs : Int) : List ParsedLog :=
  (sliceLast 700 (buffer.filter (matchesFilter kw))).filterMap (parseLine kw nowMs)

/-! ## The deep-link verifier (src/tools/verifyDeepLink.ts) -/

inductive DeepLinkEvaluationType where
  | deferred
  | direct
deriving DecidableEq

/-- One row of the `DEEP_LINK_FIELDS` table (absent optional members become
empty lists, matching the `?? []` / `?.includes(..) ?? false` reads). -/
structure DeepLinkFieldSpec where
  key : Str
  aliases : List Str := []
  requiredFor : List DeepLinkEvaluationType := []
  compareFor : List DeepLinkEvaluationType := []
deriving DecidableEq

/-- The static `DEEP_LINK_FIELDS` table. -/
def DEEP_LINK_FIELDS : List DeepLinkFieldSpec :=
  [ { key := "status".data, requiredFor := [.deferred, .direct] },
    { key := "is_deferred".data, requiredFor := [.deferred, .direct],
      compareFor := [.deferred, .direct] },
    { key := "deep_link_value".data, requiredFor := [.deferred, .direct],
      compareFor := [.deferred, .direct] },
    { key := "deep_link_sub1".data, requiredFor := [.deferred, .direct],
      compareFor := [.deferred, .direct] },
    { key := "af_sub1".data, requiredFor := [.deferred], compareFor := [.deferred] },
    { key := "af_sub2".data, requiredFor := [.deferred], compareFor := [.deferred] },
    { key := "af_sub3".data, requiredFor := [.deferred], compareFor := [.deferred] },
    { key := "af_sub4".data, requiredFor := [.deferred], compareFor := [.deferred] },
    { key := "af_sub5".data, requiredFor := [.deferred], compareFor := [.deferred] },
    { key := "pid".data, aliases := ["media_source".data],
      requiredFor := [.direct], compareFor := [.direct] },
    { key := "c".data, aliases := ["campaign".data],
      requiredFor := [.direct], compareFor := [.direct] } ]

/-- `isMissingRequiredValue`: `undefined`, `null`, or a blank string. -/
def isMissingRequiredValue : Option Json → Bool
  | none => true
  | some Json.null => true
  | some (Json.str s) => trimStr s = []
  | some _ => false

/-- JavaScript property access `j[key]` on an arbitrary JSON value (string
keys resolve only on objects; the nested-payload reads never use numeric
indices). -/
def jsonLookup : Json → Str → Option Json
  | Json.obj o, key => objFind o key
  | _, _ => none

/-- Property access through a possibly-`undefined` value (`j?.key`). -/
def jsonLookupOpt (j : Option Json) (key : Str) : Option Json :=
  match j with
  | none => none
  | some jj => jsonLookup jj key

/-- `getFieldFromSources`: the first source that contains the key, even when
its value is `null`. -/
def getFieldFromSources (key : Str) : List (Option JsonObj) → Option Json
  | [] => none
  | none :: rest => getFieldFromSources key rest
  | some src :: rest =>
    match objFind src key with
    | some v => some v
    | none => getFieldFromSources key rest

/-- Alias fallback loop of `getValueForSpec`. -/
def aliasLookup (payload : Option JsonObj) : List Str → Option Json
  | [] => none
  | a :: rest =>
    match getFieldFromSources a [payload] with
    | some v => some v
    | none => aliasLookup payload rest

/-- `getValueForSpec`: the `status` spec resolves to the passed status value;
any other spec looks up its key directly and then each alias in order. -/
def getValueForSpec (spec : DeepLinkFieldSpec) (payload : Option JsonObj)
    (status : Option Json) : Option Json :=
  if spec.key = "status".data then status
  else
    match getFieldFromSources spec.key [payload] with
    | some v => some v
    | none => aliasLookup payload spec.aliases

/-- `getStringField` on a possibly-`undefined` record. -/
def getStringField (j : Option Json) (key : Str) : Option Str :=
  match jsonLookupOpt j key with
  | some (Json.str s) => some s
  | _ => none

/-- `getBooleanField` on a possibly-`undefined` record. -/
def getBooleanField (j : Option Json) (key : Str) : Option Bool :=
  match jsonLookupOpt j key with
  | some (Json.bool b) => some b
  | _ => none

/-- Is a parsed value a JavaScript object (`typeof parsed === "object"` and
truthy): an object or an array, but not `null`. -/
def isObjLike : Json → Bool
  | Json.obj _ => true
  | Json.arr _ => true
  | _ => false

/-- `parseDeepLinkJson`: parse a JSON-stringified secondary payload, keeping
only object-typed results. -/
def parseDeepLinkJson (v : Option Json) : Option Json :=
  match v with
  | some (Json.str s) =>
    match jsonParse s with
    | some p => if isObjLike p then some p else none
    | none => none
  | _ => none

/-- `normalizeToComparable`: empty for `null`/`undefined`, literal
stringification for primitives, `JSON.stringify` otherwise. -/
def normalizeToComparable : Option Json → Str
  | none => []
  | some Json.null => []
  | some (Json.str s) => s
  | some (Json.num n) => intToChars n
  | some (Json.bool true) => "true".data
  | some (Json.bool false) => "false".data
  | some (Json.arr a) => strV (Json.arr a)
  | some (Json.obj o) => strV (Json.obj o)

/-- Own-enumerable entries spread by `{...v}` (objects yield their members,
arrays and strings their indexed elements, primitives nothing). -/
def arrEntriesFrom (i : Nat) : JsonArr → List (Str × Json)
  | .nil => []
  | .cons h tl => (natToChars i, h) :: arrEntriesFrom (i + 1) tl

/-- Object members as an entry list. -/
def objToList : JsonObj → List (Str × Json)
  | .nil => []
  | .cons k v tl => (k, v) :: objToList tl

/-- Entries of a string's indexed characters. -/
def strEntriesFrom (i : Nat) : Str → List (Str × Json)
  | [] => []
  | c :: cs => (natToChars i, Json.str [c]) :: strEntriesFrom (i + 1) cs

/-- The entries enumerated by object spread of a possibly-`undefined` value. -/
def spreadEntries : Option Json → List (Str × Json)
  | none => []
  | some (Json.obj o) => objToList o
  | some (Json.arr a) => arrEntriesFrom 0 a
  | some (Json.str s) => strEntriesFrom 0 s
  | some _ => []

/-- `receivedPayload = {...deepLinkPayload, ...foundLog.json}`: property
assignments in spread order, so top-level record fields override the secondary
nested payload's fields. -/
def receivedPayloadOf (dlp : Option Json) (foundJson : Json) : JsonObj :=
  List.foldl (fun o kv => objSet o kv.1 kv.2) JsonObj.nil
    (spreadEntries dlp ++ spreadEntries (some foundJson))

/-- One row of the per-field evaluation. -/
structure FieldEval where
  spec : DeepLinkFieldSpec
  expectedRaw : Option Json
  expectedNorm : Str
  expectedPresent : Bool
  receivedRaw : Option Json
  receivedNorm : Str
deriving DecidableEq

/-- Build the evaluation row for one spec. -/
def mkFieldEval (expectedPayload : Option JsonObj) (receivedPayload : JsonObj)
    (status : Option Str) (spec : DeepLinkFieldSpec) : FieldEval :=
  let expectedRaw := getValueForSpec spec expectedPayload none
  let receivedRaw := getValueForSpec spec (some receivedPayload) (status.map Json.str)
  { spec := spec,
    expectedRaw := expectedRaw,
    expectedNorm := normalizeToComparable expectedRaw,
    expectedPresent := !(isMissingRequiredValue expectedRaw),
    receivedRaw := receivedRaw,
    receivedNorm := normalizeToComparable receivedRaw }

/-- `fieldEvals`: one row per entry of the table. -/
def fieldEvals (expectedPayload : Option JsonObj) (receivedPayload : JsonObj)
    (status : Option Str) : List FieldEval :=
  DEEP_LINK_FIELDS.map (mkFieldEval expectedPayload receivedPayload status)

/-- The `alwaysRequiredKeys` set. -/
def alwaysRequiredKey (k : Str) : Bool :=
  k = "status".data || k = "is_deferred".data

/-- The filter of `requiredFieldEvals`. -/
def requiredPred (expectedPayload : Option JsonObj)
    (evalType : DeepLinkEvaluationType) (ev : FieldEval) : Bool :=
  if alwaysRequiredKey ev.spec.key then true
  else
    match expectedPayload with
    | some _ => ev.spec.compareFor.contains evalType && ev.expectedPresent
    | none => ev.spec.requiredFor.contains evalType

/-- The filter of `compareFieldEvals`. -/
def comparePred (evalType : DeepLinkEvaluationType) (ev : FieldEval) : Bool :=
  ev.spec.compareFor.contains evalType && ev.expectedPresent

/-- A `missingRequired` entry. -/
structure MissingEntry where
  key : Str
  received : Str
deriving DecidableEq

/-- A `comparisons` entry (the source's `matches` field is named `isMatch`
here, `matches` being reserved in Lean). -/
structure Comparison where
  key : Str
  expected : Str
  received : Str
  included : Bool
  isMatch : Bool
deriving DecidableEq

/-- The verdict stage's outputs. -/
structure DeepLinkReport where
  status : Option Str
  isDeferred : Option Bool
  evaluationType : DeepLinkEvaluationType
  missingRequired : List MissingEntry
  comparisons : List Comparison
  mismatches : List Comparison
  passed : Bool
deriving DecidableEq

/-- The pure computation of `verifyDeepLink` from the located FOUND record's
json and the expected payload: classification, field evaluation,
required-field check, comparison check, and verdict. -/
def deepLinkReport (foundJson : Json) (expectedPayload : Option JsonObj) :
    DeepLinkReport :=
  let status := getStringField (some foundJson) ("status".data)
  let deepLinkPayload :=
    match parseDeepLinkJson (jsonLookup foundJson ("deepLink".data)) with
    | some p => some p
    | none => parseDeepLinkJson (jsonLookup foundJson ("deeplink".data))
  let isDeferred :=
    match getBooleanField (some foundJson) ("is_deferred".data) with
    | some b => some b
    | none => getBooleanField deepLinkPayload ("is_deferred".data)
  let receivedPayload := receivedPayloadOf deepLinkPayload foundJson
  let evaluationType : DeepLinkEvaluationType :=
    if isDeferred = some false then .direct else .deferred
  let evals := fieldEvals expectedPayload receivedPayload status
  let requiredFieldEvals := evals.filter (requiredPred expectedPayload evaluationType)
  let compareFieldEvals := evals.filter (comparePred evaluationType)
  let missingRequired :=
    (requiredFieldEvals.filter (fun ev => isMissingRequiredValue ev.receivedRaw)).map
      (fun ev => MissingEntry.mk ev.spec.key ev.receivedNorm)
  let comparisons := compareFieldEvals.map (fun ev =>
    Comparison.mk ev.spec.key ev.expectedNorm ev.receivedNorm true
      (ev.expectedNorm = ev.receivedNorm))
  let mismatches := comparisons.filter (fun item => !item.isMatch)
  let hasExpectedData := expectedPayload.isSome
  { status := status,
    isDeferred := isDeferred,
    evaluationType := evaluationType,
    missingRequired := missingRequired,
    comparisons := comparisons,
    mismatches := mismatches,
    passed := decide (status = some ("FOUND".data)) && decide (missingRequired = []) &&
      (if hasExpectedData then decide (mismatches = []) else true) }

/-! ## The staged outcome of one `verifyDeepLink` call (after acquisition) -/

inductive VerifyDeepLinkOutcome where
  | noAppsFlyerLogs
  | noDeepLinkLogs
  | staleOrMissingEvidence
  | statusNotFound (latest : Option ParsedLog)
  | verdict (report : DeepLinkReport) (foundLog : ParsedLog)
deriving DecidableEq

/-- The recency filter `log.timestampMs && log.timestampMs >= sinceMs`
(`0` is falsy). -/
def tsTruthyRecent (sinceMs : Int) (log : ParsedLog) : Bool :=
  match log.timestampMs with
  | none => false
  | some t => !(decide (t = 0)) && decide (sinceMs ≤ t)

/-- The scope stage: deep-link records from the last five minutes. -/
def recentDeepLinkLogs (logs : List ParsedLog) (nowMs : Int) : List ParsedLog :=
  logs.filter (tsTruthyRecent (nowMs - 5 * 60 * 1000))

/-- The locate stage: newest-to-oldest search for `status == "FOUND"`. -/
def findFoundLog (recent : List ParsedLog) : Option ParsedLog :=
  recent.reverse.find? (fun log =>
    getStringField (some log.json) ("status".data) = some ("FOUND".data))

/-- The handler body of `verifyDeepLink` after log acquisition, as a total
function: every stage failure is a returned diagnostic value, never an
exception. -/
def verifyDeepLinkOutcome (logs allLogs : List ParsedLog)
    (expected : Option JsonObj) (nowMs : Int) : VerifyDeepLinkOutcome :=
  let recentLogs := recentDeepLinkLogs logs nowMs
  if logs.isEmpty then
    if allLogs.isEmpty then .noAppsFlyerLogs else .noDeepLinkLogs
  else if recentLogs.isEmpty then .staleOrMissingEvidence
  else
    match findFoundLog recentLogs with
    | none => .statusNotFound recentLogs.getLast?
    | some foundLog => .verdict (deepLinkReport foundLog.json expected) foundLog

/-- The composition of the handler with the filtering query on a buffer
snapshot. -/
def verifyDeepLinkFromBuffer (buffer : List Str) (expected : Option JsonObj)
    (nowMs : Int) : VerifyDeepLinkOutcome :=
  verifyDeepLinkOutcome
    (getParsedAppsflyerFilters buffer (some ("deepLink".data)) nowMs)
    (getParsedAppsflyerFilters buffer none nowMs) expected nowMs

/-! ## The event correlator (src/tools/verifyInAppEvent.ts) -/

/-- A `PreparedEvent`. -/
structure PreparedEvent where
  taskId : Str
  payload : Json
  eventName : Option Str
deriving DecidableEq

/-- The correlated status of a prepared event. -/
inductive SentStatus where
  | prepared
  | sent
deriving DecidableEq

/-- A `CorrelatedPreparedEvent`. -/
structure CorrelatedPreparedEvent where
  taskId : Str
  payload : Json
  eventName : Option Str
  sent : Bool
  status : SentStatus
  evidence : List Str
deriving DecidableEq

/-- Try `TASK_REGEX = /(INAPP-\d+)/i` at the current position: a
case-insensitive `INAPP-` marker followed by a maximal non-empty digit run,
returned in its original casing. -/
def tryTaskHere : Str → Option Str
  | c1 :: c2 :: c3 :: c4 :: c5 :: c6 :: rest =>
    if lowerStr [c1, c2, c3, c4, c5, c6] = "inapp-".data then
      match rest.takeWhile Char.isDigit with
      | [] => none
      | ds => some ([c1, c2, c3, c4, c5, c6] ++ ds)
    else none
  | _ => none

/-- `line.match(TASK_REGEX)`: the first position where the pattern matches. -/
def findTaskMatch : Str → Option Str
  | [] => none
  | c :: cs =>
    match tryTaskHere (c :: cs) with
    | some m => some m
    | none => findTaskMatch cs

/-- `extractTaskId`: a non-blank string `task_id`/`taskId` JSON field
(trimmed), else the first textual `INAPP-<digits>` token of the line. -/
def extractTaskId (line : Str) (json : Option Json) : Option Str :=
  let jsonTaskId :=
    match jsonLookupOpt json ("task_id".data) with
    | none => jsonLookupOpt json ("taskId".data)
    | some Json.null => jsonLookupOpt json ("taskId".data)
    | some v => some v
  match jsonTaskId with
  | some (Json.str s) =>
    if trimStr s = [] then findTaskMatch line else some (trimStr s)
  | _ => findTaskMatch line

/-- `getEventName`, snake-case fallback. -/
def getEventNameSnake (payload : Json) : Option Str :=
  match jsonLookup payload ("event_name".data) with
  | some (Json.str s) => if trimStr s = [] then none else some s
  | _ => none

/-- `getEventName`: a non-blank `eventName`, else a non-blank `event_name`
(returned untrimmed, as in the source). -/
def getEventName (payload : Json) : Option Str :=
  match jsonLookup payload ("eventName".data) with
  | some (Json.str s) => if trimStr s = [] then getEventNameSnake payload else some s
  | _ => getEventNameSnake payload

/-- `Map.prototype.set`: overwrite in place when present, append otherwise. -/
def mapSet (m : List (Str × PreparedEvent)) (k : Str) (v : PreparedEvent) :
    List (Str × PreparedEvent) :=
  match m with
  | [] => [(k, v)]
  | (k1, v1) :: tl => if k1 = k then (k1, v) :: tl else (k1, v1) :: mapSet tl k v

/-- `Set.prototype.add` on an insertion-ordered representation. -/
def setAdd (s : List Str) (k : Str) : List Str :=
  if k ∈ s then s else s ++ [k]

/-- The scan state of `getPreparedEventsByTask`. -/
structure ScanState where
  prepared : List (Str × PreparedEvent)
  successSet : List Str
  lastSeen : Option Str
deriving DecidableEq

/-- The empty scan state. -/
def initScanState : ScanState :=
  { prepared := [], successSet := [], lastSeen := none }

/-- One iteration of the correlator scan over a buffer line. -/
def scanStep (st : ScanState) (line : Str) : ScanState :=
  if !(containsSub ("AppsFlyer".data) line) || !(containsSub ("INAPP-".data) line) then st
  else
    let lowerLine := lowerStr line
    let json := extractJson line
    let explicitTaskId := extractTaskId line json
    let lastSeen1 :=
      match explicitTaskId with
      | some t => some t
      | none => st.lastSeen
    let st1 : ScanState := { st with lastSeen := lastSeen1 }
    match lastSeen1 with
    | none => st1
    | some tid =>
      if containsSub ("preparing data".data) lowerLine then
        match json with
        | none => st1
        | some j =>
          let pe := PreparedEvent.mk tid j (getEventName j)
          { st1 with prepared := mapSet st1.prepared tid pe }
      else if containsSub ("execution finished".data) lowerLine &&
          containsSub ("result: success".data) lowerLine then
        { st1 with successSet := setAdd st1.successSet tid }
      else st1

/-- The full forward scan of the buffer. -/
def scanBuffer (buffer : List Str) : ScanState :=
  buffer.foldl scanStep initScanState

/-- Annotate one prepared event against the confirmed-sent set. -/
def annotate (successSet : List Str) (ev : PreparedEvent) : CorrelatedPreparedEvent :=
  let sentByExecution := decide (ev.taskId ∈ successSet)
  let sent := sentByExecution
  { taskId := ev.taskId, payload := ev.payload, eventName := ev.eventName,
    sent := sent,
    status := if sent then .sent else .prepared,
    evidence := if sentByExecution then
        ["execution finished with result: SUCCESS".data] else [] }

/-- `getPreparedEventsByTask`: scan, then annotate every prepared event. -/
def getPreparedEventsByTask (buffer : List Str) : List CorrelatedPreparedEvent :=
  let st := scanBuffer buffer
  (st.prepared.map Prod.snd).map (annotate st.successSet)

/-! ## The query stage of `verifyInAppEvent` -/

inductive VerifyInAppOutcome where
  | noLogs
  | noRecentLogs
  | sentResult (ev : CorrelatedPreparedEvent)
  | preparedResult (ev : CorrelatedPreparedEvent)
  | notFound (latest : Option ParsedLog)
deriving DecidableEq

/-- Task ids extracted from the recent records' json payloads. -/
def recentTaskIdsOf (recentLogs : List ParsedLog) : List Str :=
  recentLogs.foldl (fun s log =>
    match extractTaskId [] (some log.json) with
    | some t => setAdd s t
    | none => s) []

/-- The handler body of `verifyInAppEvent` after log acquisition: filter the
correlated events by recent task ids (when any) and by event name, prefer the
most recent sent match, fall back to the most recent prepared match, then to
not-found. -/
def verifyInAppEventOutcome (buffer : List Str) (eventName : Str)
    (nowMs : Int) : VerifyInAppOutcome :=
  let logs := getParsedAppsflyerFilters buffer (some ("INAPP-".data)) nowMs
  let recentLogs := logs.filter (tsTruthyRecent (nowMs - 5 * 60 * 1000))
  let preparedEvents := getPreparedEventsByTask buffer
  if logs.isEmpty then .noLogs
  else if recentLogs.isEmpty then .noRecentLogs
  else
    let recentTaskIds := recentTaskIdsOf recentLogs
    let scopedPreparedEvents :=
      if 0 < recentTaskIds.length then
        preparedEvents.filter (fun ev => decide (ev.taskId ∈ recentTaskIds))
      else preparedEvents
    let eventPrepared := scopedPreparedEvents.filter
      (fun ev => ev.eventName = some eventName)
    match eventPrepared.reverse.find? (fun ev => ev.sent) with
    | some ev => .sentResult ev
    | none =>
      match eventPrepared.getLast? with
      | some ev => .preparedResult ev
      | none => .notFound recentLogs.getLast?

/-! ## Lookup characterizations used by the resolution claims -/

/-- Lookup through a possibly-`undefined` payload. -/
def lookupKeyOpt (payload : Option JsonObj) (k : Str) : Option Json :=
  match payload with
  | none => none
  | some o => objFind o k

/-- Alias fallback of the spec-described resolution. -/
def claimAliasResolve (payload : Option JsonObj) : List Str → Option Json
  | [] => none
  | a :: rest =>
    match lookupKeyOpt payload a with
    | some v => some v
    | none => claimAliasResolve payload rest

/-- The resolution rule as the spec's field-evaluation sentence describes it:
look up the spec's key directly in the payload and, when absent, fall back to
each of its aliases in order (no special case for any key). -/
def claimResolve (spec : DeepLinkFieldSpec) (payload : Option JsonObj) : Option Json :=
  match lookupKeyOpt payload spec.key with
  | some v => some v
  | none => claimAliasResolve payload spec.aliases

/-- Last-occurrence lookup in an entry list (the value that survives a
sequence of property assignments). -/
def entriesLookupLast (k : Str) : List (Str × Json) → Option Json
  | [] => none
  | (k1, v1) :: tl =>
    match entriesLookupLast k tl with
    | some v => some v
    | none => if k1 = k then some v1 else none

theorem objFind_objSet (o : JsonObj) (k : Str) (v : Json) (key : Str) :
    objFind (objSet o k v) key = if key = k then some v else objFind o key := by
  cases o with
  | nil =>
    by_cases hk : key = k
    · subst hk
      simp [objSet, objFind]
    · simp [objSet, objFind, hk, Ne.symm hk]
  | cons k1 v1 tl =>
    by_cases h1 : k1 = k
    · subst h1
      by_cases h2 : key = k1
      · subst h2
        simp [objSet, objFind]
      · simp [objSet, objFind, h2, Ne.symm h2]
    · by_cases h2 : k1 = key
      · subst h2
        simp [objSet, objFind, h1]
      · simp [objSet, objFind, h1, h2, objFind_objSet tl k v key]

theorem objFind_foldSet (es : List (Str × Json)) (o : JsonObj) (k : Str) :
    objFind (List.foldl (fun acc kv => objSet acc kv.1 kv.2) o es) k =
      (match entriesLookupLast k es with
       | some v => some v
       | none => objFind o k) := by
  induction es generalizing o with
  | nil => rfl
  | cons kv tl ih =>
    obtain ⟨k1, v1⟩ := kv
    rw [List.foldl_cons, ih, entriesLookupLast]
    cases entriesLookupLast k tl with
    | some v => rfl
    | none =>
      simp only []
      rw [objFind_objSet]
      by_cases h : k = k1
      · subst h
        rw [if_pos rfl, if_pos rfl]
      · rw [if_neg h, if_neg (fun he => h he.symm)]

theorem entriesLookupLast_append (k : Str) (a b : List (Str × Json)) :
    entriesLookupLast k (a ++ b) =
      (match entriesLookupLast k b with
       | some v => some v
       | none => entriesLookupLast k a) := by
  induction a with
  | nil =>
    simp only [List.nil_append]
    cases entriesLookupLast k b <;> rfl
  | cons kv tl ih =>
    obtain ⟨k1, v1⟩ := kv
    rw [List.cons_append, entriesLookupLast, ih, entriesLookupLast]
    cases entriesLookupLast k b with
    | some v => rfl
    | none => cases entriesLookupLast k tl <;> rfl

theorem receivedPayload_lookup (dlp : Option Json) (foundJson : Json) (k : Str) :
    objFind (receivedPayloadOf dlp foundJson) k =
      (match entriesLookupLast k (spreadEntries (some foundJson)) with
       | some v => some v
       | none => entriesLookupLast k (spreadEntries dlp)) := by
  rw [receivedPayloadOf, objFind_foldSet, entriesLookupLast_append]
  cases entriesLookupLast k (spreadEntries (some foundJson)) with
  | some v => rfl
  | none => cases entriesLookupLast k (spreadEntries dlp) <;> rfl

end AF

namespace AF

/-! ## Named stages of the `verifyInAppEvent` query (for the selection
characterization) and concrete example data -/

/-- The recent INAPP records of the query stage. -/
def recentInAppLogs (buffer : List Str) (nowMs : Int) : List ParsedLog :=
  (getParsedAppsflyerFilters buffer (some ("INAPP-".data)) nowMs).filter
    (tsTruthyRecent (nowMs - 5 * 60 * 1000))

/-- The scoping stage: the correlated events are filtered by the recent task
ids only when at least one task id could be extracted from the recent
records; otherwise all correlated events are considered. -/
def scopedPreparedEventsOf (buffer : List Str) (nowMs : Int) :
    List CorrelatedPreparedEvent :=
  let ids := recentTaskIdsOf (recentInAppLogs buffer nowMs)
  if 0 < ids.length then
    (getPreparedEventsByTask buffer).filter (fun ev => decide (ev.taskId ∈ ids))
  else getPreparedEventsByTask buffer

/-- The scoped events matching the requested event name. -/
def eventMatchesOf (buffer : List Str) (eventName : Str) (nowMs : Int) :
    List CorrelatedPreparedEvent :=
  (scopedPreparedEventsOf buffer nowMs).filter
    (fun ev => ev.eventName = some eventName)

/-- Scenario record `\x7bstatus:"FOUND", is_deferred:false, deep_link_value:"x"\x7d`. -/
def exRecordB : Json :=
  Json.obj (JsonObj.cons ("status".data) (Json.str ("FOUND".data))
    (JsonObj.cons ("is_deferred".data) (Json.bool false)
      (JsonObj.cons ("deep_link_value".data) (Json.str ("x".data)) JsonObj.nil)))

/-- Expected payload `\x7bdeep_link_value:"x"\x7d`. -/
def exExpectedB : JsonObj :=
  JsonObj.cons ("deep_link_value".data) (Json.str ("x".data)) JsonObj.nil

/-- Expected payload `\x7bstatus:"FOUND"\x7d`. -/
def exExpectedStatus : JsonObj :=
  JsonObj.cons ("status".data) (Json.str ("FOUND".data)) JsonObj.nil

/-- The `status` row of the field table. -/
def exStatusSpec : DeepLinkFieldSpec :=
  { key := "status".data,
    requiredFor := [DeepLinkEvaluationType.deferred, DeepLinkEvaluationType.direct] }

/-- The `pid` row of the field table. -/
def exPidSpec : DeepLinkFieldSpec :=
  { key := "pid".data, aliases := ["media_source".data],
    requiredFor := [DeepLinkEvaluationType.direct],
    compareFor := [DeepLinkEvaluationType.direct] }

/-- A buffer line preparing event "purchase" under task INAPP-8. -/
def exLinePrepare8 : Str :=
  ("AppsFlyer INAPP- preparing data \x7b\"eventName\":\"purchase\",\"task_id\":\"INAPP-8\"\x7d").data

/-- A buffer line preparing event "purchase" under task INAPP-7. -/
def exLinePrepare7 : Str :=
  ("AppsFlyer INAPP- preparing data \x7b\"eventName\":\"purchase\",\"task_id\":\"INAPP-7\"\x7d").data

/-- A timestamped INAPP line whose json carries no task id. -/
def exLineRecent : Str :=
  ("2026-10-11 12:00:00.000 AppsFlyer INAPP- x \x7b\"a\":1\x7d").data

/-- A prepare-like line carrying a task id but no product marker. -/
def exLineNoMarker : Str :=
  ("preparing data \x7b\"task_id\":\"INAPP-9\"\x7d").data

/-- The reference instant 2026-10-11 12:00:00.000. -/
def exNowMs : Int := mkDateMs 2026 9 11 12 0 0 0

/-- The correlated event for task INAPP-7 of `exLinePrepare7`. -/
def exEv7 : CorrelatedPreparedEvent :=
  { taskId := "INAPP-7".data,
    payload := Json.obj (JsonObj.cons ("eventName".data) (Json.str ("purchase".data))
      (JsonObj.cons ("task_id".data) (Json.str ("INAPP-7".data)) JsonObj.nil)),
    eventName := some ("purchase".data),
    sent := false,
    status := SentStatus.prepared,
    evidence := [] }

/-- The two-line buffer of the scoping counterexample. -/
def exBufferC4 : List Str := [exLinePrepare7, exLineRecent]

/-- A deep-link record parsed one hour before `exNowMs`. -/
def exStaleLog : ParsedLog :=
  { timestamp := "2026-10-11 11:00:00.000".data,
    timestampMs := some (mkDateMs 2026 9 11 11 0 0 0),
    type := "deepLink".data,
    json := Json.obj (JsonObj.cons ("status".data) (Json.str ("FOUND".data)) JsonObj.nil) }

/-- A deep-link record parsed at `exNowMs`. -/
def exFreshLog : ParsedLog :=
  { timestamp := "2026-10-11 12:00:00.000".data,
    timestampMs := some exNowMs,
    type := "deepLink".data,
    json := Json.obj (JsonObj.cons ("status".data) (Json.str ("FOUND".data)) JsonObj.nil) }

theorem getFieldFromSources_single (key : Str) (payload : Option JsonObj) :
    getFieldFromSources key [payload] = lookupKeyOpt payload key := by
  cases payload with
  | none => rfl
  | some o =>
    rw [getFieldFromSources, lookupKeyOpt]
    cases objFind o key <;> rfl

theorem aliasLookup_eq_claim (payload : Option JsonObj) (as : List Str) :
    aliasLookup payload as = claimAliasResolve payload as := by
  induction as with
  | nil => rfl
  | cons a rest ih =>
    rw [aliasLookup, claimAliasResolve, getFieldFromSources_single]
    cases lookupKeyOpt payload a with
    | some v => rfl
    | none => exact ih

end AF

namespace AF

/-- C1: For every located FOUND deep-link record, the verifyDeepLink verdict
is "passed" iff the record's status field equals "FOUND", the set of missing
required fields is empty, and, when expected data exists, the set of
normalized expected-vs-received mismatches is empty; in particular Scenario B
(record status FOUND / is_deferred false / deep_link_value "x" against
expected deep_link_value "x") passes with zero mismatches. -/
theorem passed_formula (S : Option Str) (M : List MissingEntry) (E : Bool)
    (Mm : List Comparison) :
    (decide (S = some ("FOUND".data)) && decide (M = []) &&
      (if E then decide (Mm = []) else true)) = true ↔
    (S = some ("FOUND".data) ∧ M = [] ∧ (E = true → Mm = [])) := by
  cases E
  · simp
  · simp
    tauto

theorem deepLink_verdict_pass_iff :
    (∀ (foundJson : Json) (expected : Option JsonObj),
      (deepLinkReport foundJson expected).passed = true ↔
        ((deepLinkReport foundJson expected).status = some ("FOUND".data) ∧
         (deepLinkReport foundJson expected).missingRequired = [] ∧
         (expected.isSome = true →
           (deepLinkReport foundJson expected).mismatches = []))) ∧
    ((deepLinkReport exRecordB (some exExpectedB)).passed = true ∧
     (deepLinkReport exRecordB (some exExpectedB)).mismatches = []) := by
  constructor
  · intro foundJson expected
    exact passed_formula (deepLinkReport foundJson expected).status
      (deepLinkReport foundJson expected).missingRequired expected.isSome
      (deepLinkReport foundJson expected).mismatches
  · exact ⟨by decide, by decide⟩

end AF

namespace AF

/-- C2: a field is required exactly when its key is status or is_deferred
(always), or expected data exists, its spec is comparable for the evaluation
type and an expected value was present, or no expected data exists and its
spec is required for the evaluation type; in particular with expected payload
status-only under direct evaluation exactly status and is_deferred are
required (pid and c are not). -/
theorem requiredField_characterization :
    (∀ (expected : Option JsonObj) (evalType : DeepLinkEvaluationType)
        (ev : FieldEval),
      requiredPred expected evalType ev = true ↔
        ((ev.spec.key = "status".data ∨ ev.spec.key = "is_deferred".data) ∨
         (expected.isSome = true ∧ ev.spec.compareFor.contains evalType = true ∧
           ev.expectedPresent = true) ∨
         (expected = none ∧ ev.spec.requiredFor.contains evalType = true))) ∧
    (((fieldEvals (some exExpectedStatus) JsonObj.nil none).filter
        (requiredPred (some exExpectedStatus) DeepLinkEvaluationType.direct)).map
        (fun ev => ev.spec.key) =
      ["status".data, "is_deferred".data]) ∧
    (¬ exPidSpec.key ∈ ((fieldEvals (some exExpectedStatus) JsonObj.nil none).filter
        (requiredPred (some exExpectedStatus) DeepLinkEvaluationType.direct)).map
        (fun ev => ev.spec.key)) := by
  refine ⟨?_, by decide, by decide⟩
  intro expected evalType ev
  rw [requiredPred.eq_def, alwaysRequiredKey]
  by_cases hk : (ev.spec.key = "status".data ∨ ev.spec.key = "is_deferred".data)
  · rw [if_pos (by simpa using hk)]
    simp [hk]
  · rw [if_neg (by simpa using hk)]
    cases expected with
    | none => simp [hk]
    | some e => simp [hk]

/-- C3: after the correlator scan, every prepared event is annotated with
sent = (its task id is in the confirmed-sent set) and status = sent/prepared
accordingly; in particular a prepared event with no matching success line is
reported prepared and unsent (Scenario E). -/
theorem correlated_event_annotation :
    (∀ (buffer : List Str) (ev : CorrelatedPreparedEvent),
        ev ∈ getPreparedEventsByTask buffer →
      ev.sent = decide (ev.taskId ∈ (scanBuffer buffer).successSet) ∧
      ev.status = (if ev.sent then SentStatus.sent else SentStatus.prepared)) ∧
    ((getPreparedEventsByTask [exLinePrepare8]).map
        (fun ev => (ev.taskId, ev.sent, ev.status)) =
      [("INAPP-8".data, false, SentStatus.prepared)]) := by
  refine ⟨?_, by decide⟩
  intro buffer ev hmem
  rw [getPreparedEventsByTask] at hmem
  obtain ⟨pe, _, rfl⟩ := List.mem_map.mp hmem
  refine ⟨rfl, ?_⟩
  rfl

/-- C10: the correlator scan only processes lines containing both the
"AppsFlyer" and "INAPP-" substrings; a line lacking either leaves the scan
state entirely unchanged, even when its JSON carries a task id. -/
theorem scan_ignores_unmarked_lines :
    (∀ (st : ScanState) (line : Str),
        containsSub ("AppsFlyer".data) line = false ∨
          containsSub ("INAPP-".data) line = false →
      scanStep st line = st) ∧
    (scanStep initScanState exLineNoMarker = initScanState ∧
     getPreparedEventsByTask [exLineNoMarker] = []) := by
  refine ⟨?_, by decide, by decide⟩
  intro st line h
  rw [scanStep]
  rcases h with h | h <;> simp [h]

/-- Witness for C10 at the concrete prepare-like line lacking the product
marker. -/
theorem scan_ignores_unmarked_lines_witness :
    (containsSub ("AppsFlyer".data) exLineNoMarker = false ∨
      containsSub ("INAPP-".data) exLineNoMarker = false) ∧
    scanStep initScanState exLineNoMarker = initScanState :=
  ⟨Or.inl (by decide),
    scan_ignores_unmarked_lines.1 initScanState exLineNoMarker (Or.inl (by decide))⟩

/-- Witness for C3 at the single-line Scenario E buffer. -/
theorem correlated_event_annotation_witness :
    (∃ ev, ev ∈ getPreparedEventsByTask [exLinePrepare8] ∧
      ev.sent = decide (ev.taskId ∈ (scanBuffer [exLinePrepare8]).successSet) ∧
      ev.status = (if ev.sent then SentStatus.sent else SentStatus.prepared)) := by
  refine ⟨(getPreparedEventsByTask [exLinePrepare8]).head (by decide), ?_, ?_⟩
  · exact List.head_mem _
  · exact correlated_event_annotation.1 [exLinePrepare8] _ (List.head_mem _)

end AF

namespace AF

/-- C4 counterexample: with a buffer whose only recent INAPP record yields no
task id, the query selects a prepared event whose task id does not appear in
any recent record — so the time-window filter described by the claim is not
applied. -/
theorem inapp_query_window_counterexample :
    verifyInAppEventOutcome exBufferC4 ("purchase".data) exNowMs =
      VerifyInAppOutcome.preparedResult exEv7 ∧
    recentTaskIdsOf (recentInAppLogs exBufferC4 exNowMs) = [] ∧
    ¬ exEv7.taskId ∈ recentTaskIdsOf (recentInAppLogs exBufferC4 exNowMs) := by
  refine ⟨by decide, by decide, by decide⟩

/-- C4 amended: when recent INAPP records exist, the query filters the
correlated events by the recent task ids only when at least one task id can
be extracted from those records (`scopedPreparedEventsOf`), filters by the
requested event name, and selects the most recent sent match, falling back to
the most recent prepared match, falling back to not-found. -/
theorem inapp_query_selection :
    ∀ (buffer : List Str) (eventName : Str) (nowMs : Int),
      getParsedAppsflyerFilters buffer (some ("INAPP-".data)) nowMs ≠ [] →
      recentInAppLogs buffer nowMs ≠ [] →
      verifyInAppEventOutcome buffer eventName nowMs =
        (match (eventMatchesOf buffer eventName nowMs).reverse.find?
            (fun ev => ev.sent) with
         | some ev => VerifyInAppOutcome.sentResult ev
         | none =>
           match (eventMatchesOf buffer eventName nowMs).getLast? with
           | some ev => VerifyInAppOutcome.preparedResult ev
           | none => VerifyInAppOutcome.notFound
               (recentInAppLogs buffer nowMs).getLast?) := by
  intro buffer eventName nowMs hlogs hrecent
  rw [verifyInAppEventOutcome]
  rw [if_neg (by simpa [List.isEmpty_iff] using hlogs)]
  rw [if_neg (by simpa [List.isEmpty_iff, recentInAppLogs] using hrecent)]
  simp only [eventMatchesOf, scopedPreparedEventsOf, recentInAppLogs]

/-- Witness for C4's amended selection at the counterexample buffer. -/
theorem inapp_query_selection_witness :
    getParsedAppsflyerFilters exBufferC4 (some ("INAPP-".data)) exNowMs ≠ [] ∧
    recentInAppLogs exBufferC4 exNowMs ≠ [] ∧
    verifyInAppEventOutcome exBufferC4 ("purchase".data) exNowMs =
      (match (eventMatchesOf exBufferC4 ("purchase".data) exNowMs).reverse.find?
          (fun ev => ev.sent) with
       | some ev => VerifyInAppOutcome.sentResult ev
       | none =>
         match (eventMatchesOf exBufferC4 ("purchase".data) exNowMs).getLast? with
         | some ev => VerifyInAppOutcome.preparedResult ev
         | none => VerifyInAppOutcome.notFound
             (recentInAppLogs exBufferC4 exNowMs).getLast?) :=
  ⟨by decide, by decide,
    inapp_query_selection exBufferC4 ("purchase".data) exNowMs (by decide) (by decide)⟩

/-- C5 counterexample: for the `status` entry of the field table, the
evaluation does not resolve the expected value by direct key lookup in the
expected payload — the code's special case returns the passed status argument
(`undefined` on the expected side) where the claim's resolution rule would
find "FOUND". -/
theorem field_resolution_status_counterexample :
    DEEP_LINK_FIELDS.head? = some exStatusSpec ∧
    getValueForSpec exStatusSpec (some exExpectedStatus) none = none ∧
    claimResolve exStatusSpec (some exExpectedStatus) =
      some (Json.str ("FOUND".data)) ∧
    getValueForSpec exStatusSpec (some exExpectedStatus) none ≠
      claimResolve exStatusSpec (some exExpectedStatus) ∧
    (mkFieldEval (some exExpectedStatus) JsonObj.nil none exStatusSpec).expectedRaw
      = none := by
  refine ⟨by decide, by decide, by decide, by decide, by decide⟩

/-- C5 amended: for every entry of the field table other than the `status`
entry, `getValueForSpec` resolves a value from the payload by looking up the
spec's key directly and, when absent, falling back to each alias in order
(`claimResolve`); and the merged received payload resolves every key to the
top-level record field when present, falling back to the secondary nested
payload's field. -/
theorem field_resolution_amended :
    (∀ (spec : DeepLinkFieldSpec) (payload : Option JsonObj) (st : Option Json),
        ¬ spec.key = "status".data →
      getValueForSpec spec payload st = claimResolve spec payload) ∧
    (∀ (dlp : Option Json) (foundJson : Json) (k : Str),
      objFind (receivedPayloadOf dlp foundJson) k =
        (match entriesLookupLast k (spreadEntries (some foundJson)) with
         | some v => some v
         | none => entriesLookupLast k (spreadEntries dlp))) := by
  constructor
  · intro spec payload st h
    rw [getValueForSpec, if_neg h, claimResolve, getFieldFromSources_single]
    cases lookupKeyOpt payload spec.key with
    | some v => rfl
    | none => exact aliasLookup_eq_claim payload spec.aliases
  · exact receivedPayload_lookup

/-- Witness for C5's amended resolution at the `pid` row and a concrete
payload. -/
theorem field_resolution_amended_witness :
    (¬ exPidSpec.key = "status".data) ∧
    getValueForSpec exPidSpec (some exExpectedStatus) none =
      claimResolve exPidSpec (some exExpectedStatus) :=
  ⟨by decide,
    field_resolution_amended.1 exPidSpec (some exExpectedStatus) none (by decide)⟩

end AF

namespace AF

/-- A single unstamped INAPP line for the filtering witness. -/
def exLineSimple : Str := ("AppsFlyer INAPP- \x7b\"a\":1\x7d").data

/-- The record the filtering query produces for `exLineSimple`. -/
def exParsedSimple : ParsedLog :=
  { timestamp := exLineSimple.take 18, timestampMs := none,
    type := "INAPP-".data,
    json := Json.obj (JsonObj.cons ("a".data) (Json.num 1) JsonObj.nil) }

/-- C6: the filtering query returns the parsed records of at most the 700
most recent matching buffer lines, in order (a sublist of the buffer), every
returned record has a (non-null) JSON object payload, and lines whose JSON
extraction fails are dropped. -/
theorem filterRecords_bounded_parsed :
    (∀ (buffer : List Str) (kw : Option Str) (nowMs : Int),
      (getParsedAppsflyerFilters buffer kw nowMs).length ≤ 700) ∧
    (∀ (buffer : List Str) (kw : Option Str) (nowMs : Int) (r : ParsedLog),
        r ∈ getParsedAppsflyerFilters buffer kw nowMs →
      ∃ o, r.json = Json.obj o) ∧
    (∀ (buffer : List Str) (kw : Option Str) (nowMs : Int),
      ∃ lines : List Str, lines.Sublist buffer ∧
        (∀ l ∈ lines, matchesFilter kw l = true) ∧
        lines = sliceLast 700 (buffer.filter (matchesFilter kw)) ∧
        getParsedAppsflyerFilters buffer kw nowMs =
          lines.filterMap (parseLine kw nowMs)) := by
  refine ⟨?_, ?_, ?_⟩
  · intro buffer kw nowMs
    rw [getParsedAppsflyerFilters]
    have h1 := List.length_filterMap_le (parseLine kw nowMs)
      (sliceLast 700 (buffer.filter (matchesFilter kw)))
    have h2 : (sliceLast 700 (buffer.filter (matchesFilter kw))).length ≤ 700 := by
      rw [sliceLast, List.length_drop]
      omega
    omega
  · intro buffer kw nowMs r hr
    rw [getParsedAppsflyerFilters] at hr
    obtain ⟨line, hline, hp⟩ := List.mem_filterMap.mp hr
    rw [parseLine] at hp
    cases hx : extractJson line with
    | none => rw [hx] at hp; exact absurd hp (by simp)
    | some j =>
      rw [hx] at hp
      injection hp with hp
      obtain ⟨⟨o, ho⟩, -⟩ := extractJson_shape hx
      refine ⟨o, ?_⟩
      rw [← hp]
      exact ho
  · intro buffer kw nowMs
    refine ⟨sliceLast 700 (buffer.filter (matchesFilter kw)), ?_, ?_, rfl, rfl⟩
    · exact (List.drop_sublist _ _).trans (List.filter_sublist _)
    · intro l hl
      rw [sliceLast] at hl
      exact (List.mem_filter.mp (List.mem_of_mem_drop hl)).2

/-- Witness for C6's parsed-record property at a one-line buffer. -/
theorem filterRecords_bounded_parsed_witness :
    exParsedSimple ∈
      getParsedAppsflyerFilters [exLineSimple] (some ("INAPP-".data)) exNowMs ∧
    ∃ o, exParsedSimple.json = Json.obj o :=
  ⟨by decide,
    filterRecords_bounded_parsed.2.1 [exLineSimple] (some ("INAPP-".data)) exNowMs
      exParsedSimple (by decide)⟩

/-- C7: for a short-form timestamp, the parser assumes the current year; when
the resulting instant is more than 24 hours in the future relative to now the
inferred year is now's year minus one, otherwise now's year, and the returned
epoch value is built from that inferred year. -/
theorem short_timestamp_year_inference :
    ∀ (nowMs : Int) (line : Str) (mo d h mi s ms : Int),
      matchFullTs line = none →
      matchShortTs line = some (mo, d, h, mi, s, ms) →
      parseLogcatTimestamp nowMs line =
        (line.take 18,
         some (mkDateMs
           (if nowMs + 24 * 60 * 60 * 1000 <
               mkDateMs (yearOfMs nowMs) (mo - 1) d h mi s ms
            then yearOfMs nowMs - 1 else yearOfMs nowMs)
           (mo - 1) d h mi s ms)) := by
  intro nowMs line mo d h mi s ms hfull hshort
  simp only [parseLogcatTimestamp, hfull, hshort]
  by_cases hc : nowMs + 24 * 60 * 60 * 1000 <
      mkDateMs (yearOfMs nowMs) (mo - 1) d h mi s ms
  · rw [if_pos hc, if_pos hc]
  · rw [if_neg hc, if_neg hc]

/-- A short-form timestamped line. -/
def exShortLine : Str := ("10-11 12:00:00.123 xyz").data

/-- Witness for C7 at a concrete short-form line and instant. -/
theorem short_timestamp_year_inference_witness :
    (matchFullTs exShortLine).isNone = true ∧
    matchShortTs exShortLine = some (10, 11, 12, 0, 0, 123) ∧
    parseLogcatTimestamp exNowMs exShortLine =
      (exShortLine.take 18,
       some (mkDateMs
         (if exNowMs + 24 * 60 * 60 * 1000 <
             mkDateMs (yearOfMs exNowMs) (10 - 1) 11 12 0 0 123
          then yearOfMs exNowMs - 1 else yearOfMs exNowMs)
         (10 - 1) 11 12 0 0 123)) :=
  ⟨by rfl, by rfl,
    short_timestamp_year_inference exNowMs exShortLine 10 11 12 0 0 123
      (by rfl) (by rfl)⟩

/-- C8: `extractJson` is idempotent — whenever it returns a mapping `m`,
re-extracting from the `JSON.stringify` of `m` returns `m` again. -/
theorem extractJson_idempotent :
    ∀ (line : Str) (m : Json), extractJson line = some m →
      extractJson (strV m) = some m :=
  fun _ _ h => extractJson_stringify h

/-- A line embedding a JSON object. -/
def exJsonLine : Str := ("x \x7b\"a\":1\x7d y").data

/-- The mapping embedded in `exJsonLine`. -/
def exJsonVal : Json :=
  Json.obj (JsonObj.cons ("a".data) (Json.num 1) JsonObj.nil)

/-- Witness for C8 at a concrete line. -/
theorem extractJson_idempotent_witness :
    extractJson exJsonLine = some exJsonVal ∧
    extractJson (strV exJsonVal) = some exJsonVal :=
  ⟨by decide, extractJson_idempotent exJsonLine exJsonVal (by decide)⟩

/-- C9: only deep-link records whose timestamp is at most five minutes old
are kept by the scope stage, and when deep-link records exist but none is
recent the call returns the StaleOrMissingEvidence diagnostic as a normal
value (the outcome function is total — nothing is thrown). -/
theorem scope_recent_and_stale_result :
    (∀ (logs : List ParsedLog) (nowMs : Int) (log : ParsedLog),
        log ∈ recentDeepLinkLogs logs nowMs →
      ∃ t, log.timestampMs = some t ∧ nowMs - 5 * 60 * 1000 ≤ t) ∧
    (∀ (logs allLogs : List ParsedLog) (expected : Option JsonObj) (nowMs : Int),
        logs ≠ [] → recentDeepLinkLogs logs nowMs = [] →
      verifyDeepLinkOutcome logs allLogs expected nowMs =
        VerifyDeepLinkOutcome.staleOrMissingEvidence) := by
  constructor
  · intro logs nowMs log hmem
    have ht := (List.mem_filter.mp hmem).2
    cases hts : log.timestampMs with
    | none => simp [tsTruthyRecent, hts] at ht
    | some t =>
      simp [tsTruthyRecent, hts] at ht
      obtain ⟨-, h2⟩ := ht
      exact ⟨t, rfl, by omega⟩
  · intro logs allLogs expected nowMs hne hrec
    simp only [verifyDeepLinkOutcome]
    rw [if_neg (by simpa [List.isEmpty_iff] using hne),
      if_pos (by simpa [List.isEmpty_iff] using hrec)]

/-- Witness for C9: a fresh record is kept with a recent timestamp, and a
one-hour-old record alone produces the stale diagnostic. -/
theorem scope_recent_and_stale_result_witness :
    (exFreshLog ∈ recentDeepLinkLogs [exFreshLog] exNowMs ∧
      ∃ t, exFreshLog.timestampMs = some t ∧ exNowMs - 5 * 60 * 1000 ≤ t) ∧
    (([exStaleLog] : List ParsedLog) ≠ [] ∧
      recentDeepLinkLogs [exStaleLog] exNowMs = [] ∧
      verifyDeepLinkOutcome [exStaleLog] [] none exNowMs =
        VerifyDeepLinkOutcome.staleOrMissingEvidence) :=
  ⟨⟨by decide,
      scope_recent_and_stale_result.1 [exFreshLog] exNowMs exFreshLog (by decide)⟩,
   ⟨by decide, by decide,
      scope_recent_and_stale_result.2 [exStaleLog] [] none exNowMs
        (by decide) (by decide)⟩⟩

end AF
